import Mathlib

/-!
# Verification of the FQS polynomial solver and the surface-energy-balance loops
of `CFM_main/RCMpkl_to_spin.py`

This file gives a shallow embedding, over exact real/complex arithmetic, of

* the `FQS` class (quadratic, cubic and quartic closed-form solvers, in their
  single-equation and batched per-element forms, plus the `cubic_roots` /
  `quartic_roots` dispatchers), and
* the energy-balance stepping loops: the one in `calcSEB` and the melt
  pre-calculation loop inside `makeSpinFiles`.

Python floats are modelled as `ℝ`, complex numbers as `ℂ`; a possibly-NaN
float is modelled as `Option ℝ` with `none` playing NaN.  `cmath.sqrt` and
`numpy`'s complex `sqrt` are the principal complex square root
(`z ^ (1/2 : ℂ)`), and Python's `x ** (1/3)` on a complex number is the
principal complex power; on a non-negative float it is the real power
`x ^ (1/3 : ℝ)`.
-/

noncomputable section

open Complex

/-- Principal complex square root, as computed by `cmath.sqrt` and by
`np.sqrt` on a complex array. -/
def csqrt (z : ℂ) : ℂ := z ^ ((1 : ℂ)/2)

/-- The sign-preserving cube root of `FQS.single_cubic`/`single_cubic_one`
(`cubic_root`), applied to a complex value: `x ** (1/3)` when `x.real >= 0`,
otherwise `-((-x) ** (1/3))`. -/
def ccbrt (x : ℂ) : ℂ := if 0 ≤ x.re then x ^ ((1 : ℂ)/3) else -((-x) ^ ((1 : ℂ)/3))

/-- The same sign-preserving cube root applied to a float, as in
`FQS.multi_cubic`'s `cubic_root` acting on real arrays. -/
def cbrtR (x : ℝ) : ℝ := if 0 ≤ x then x ^ ((1 : ℝ)/3) else -((-x) ^ ((1 : ℝ)/3))

namespace FQS

/-- `FQS.single_quadratic`: roots `(r1, r2)` of `a0*x^2 + b0*x + c0`. -/
def single_quadratic (a0 b0 c0 : ℂ) : ℂ × ℂ :=
  let a := b0 / a0
  let b := c0 / a0
  let a0' := -0.5 * a
  let delta := a0' * a0' - b
  let sqrt_delta := csqrt delta
  (a0' - sqrt_delta, a0' + sqrt_delta)

/-- `FQS.multi_quadratic`, per batch element: same formula with
`np.sqrt(delta + 0j)` in place of `cmath.sqrt(delta)`. -/
def multi_quadratic (a0 b0 c0 : ℂ) : ℂ × ℂ :=
  let a := b0 / a0
  let b := c0 / a0
  let a0' := -0.5 * a
  let delta := a0' * a0' - b
  let sqrt_delta := csqrt delta
  (a0' - sqrt_delta, a0' + sqrt_delta)

/-- The normalized-cubic intermediate `a13 = a * (1/3)` shared by
`FQS.single_cubic`, `FQS.single_cubic_one` and `FQS.multi_cubic`. -/
def cubic_a13 (a0 b0 : ℝ) : ℝ := (b0 / a0) * ((1:ℝ)/3)

/-- The cubic classification intermediate `f = third*b - a2`. -/
def cubic_f (a0 b0 c0 : ℝ) : ℝ :=
  ((1:ℝ)/3) * (c0 / a0) - cubic_a13 a0 b0 * cubic_a13 a0 b0

/-- The cubic classification intermediate `g = a13*(2*a2 - b) + c`. -/
def cubic_g (a0 b0 c0 d0 : ℝ) : ℝ :=
  cubic_a13 a0 b0 * (2 * (cubic_a13 a0 b0 * cubic_a13 a0 b0) - c0 / a0) + d0 / a0

/-- The cubic classification intermediate `h = 0.25*g*g + f*f*f`. -/
def cubic_h (a0 b0 c0 d0 : ℝ) : ℝ :=
  0.25 * cubic_g a0 b0 c0 d0 * cubic_g a0 b0 c0 d0
    + cubic_f a0 b0 c0 * cubic_f a0 b0 c0 * cubic_f a0 b0 c0

/-- The trigonometric intermediate `m = cos(third*k)` of the `h <= 0`
branch, where `j = sqrt(-f)` and `k = arccos(-0.5*g/(j*j*j))`. -/
def cubic_trig_m (a0 b0 c0 d0 : ℝ) : ℝ :=
  Real.cos (((1:ℝ)/3) * Real.arccos (-0.5 * cubic_g a0 b0 c0 d0 /
    (Real.sqrt (-cubic_f a0 b0 c0) * Real.sqrt (-cubic_f a0 b0 c0) *
      Real.sqrt (-cubic_f a0 b0 c0))))

/-- The first root `r1 = 2*j*m - a13` of the three-distinct-real-roots
branch (`h <= 0`). -/
def cubic_trig_r1 (a0 b0 c0 d0 : ℝ) : ℝ :=
  2 * Real.sqrt (-cubic_f a0 b0 c0) * cubic_trig_m a0 b0 c0 d0 - cubic_a13 a0 b0

/-- The trigonometric intermediate `n = sqr3 * sin(third*k)` of the
`h <= 0` branch (used only for the second and third roots). -/
def cubic_trig_n (a0 b0 c0 d0 : ℝ) : ℝ :=
  Real.sqrt 3 * Real.sin (((1:ℝ)/3) * Real.arccos (-0.5 * cubic_g a0 b0 c0 d0 /
    (Real.sqrt (-cubic_f a0 b0 c0) * Real.sqrt (-cubic_f a0 b0 c0) *
      Real.sqrt (-cubic_f a0 b0 c0))))

/-- The Cardano term `S = cubic_root(-0.5*g + sqrt_h)` of the `h > 0`
branch, with `cmath` square root and complex sign-preserving cube root. -/
def cubic_S (a0 b0 c0 d0 : ℝ) : ℂ :=
  ccbrt (-(0.5 : ℂ) * ((cubic_g a0 b0 c0 d0 : ℝ) : ℂ)
    + csqrt ((cubic_h a0 b0 c0 d0 : ℝ) : ℂ))

/-- The Cardano term `U = cubic_root(-0.5*g - sqrt_h)` of the `h > 0`
branch. -/
def cubic_U (a0 b0 c0 d0 : ℝ) : ℂ :=
  ccbrt (-(0.5 : ℂ) * ((cubic_g a0 b0 c0 d0 : ℝ) : ℂ)
    - csqrt ((cubic_h a0 b0 c0 d0 : ℝ) : ℂ))

/-- The real Cardano term `S` of `FQS.multi_cubic`'s `roots_one_real`
(the masked subarrays are real, so `np.sqrt` and `cubic_root` are real
operations there). -/
def cubic_Sr (a0 b0 c0 d0 : ℝ) : ℝ :=
  cbrtR (-0.5 * cubic_g a0 b0 c0 d0 + Real.sqrt (cubic_h a0 b0 c0 d0))

/-- The real Cardano term `U` of `FQS.multi_cubic`'s `roots_one_real`. -/
def cubic_Ur (a0 b0 c0 d0 : ℝ) : ℝ :=
  cbrtR (-0.5 * cubic_g a0 b0 c0 d0 - Real.sqrt (cubic_h a0 b0 c0 d0))

/-- `FQS.single_cubic`: the three roots of `a0*x^3 + b0*x^2 + c0*x + d0`
(real coefficients, complex roots), with the source's three-way
classification on `(f, g, h)`. -/
def single_cubic (a0 b0 c0 d0 : ℝ) : ℂ × ℂ × ℂ :=
  if cubic_f a0 b0 c0 = 0 ∧ cubic_g a0 b0 c0 d0 = 0 ∧ cubic_h a0 b0 c0 d0 = 0 then
    (((-cbrtR (d0 / a0) : ℝ) : ℂ), ((-cbrtR (d0 / a0) : ℝ) : ℂ),
     ((-cbrtR (d0 / a0) : ℝ) : ℂ))
  else if cubic_h a0 b0 c0 d0 ≤ 0 then
    (((cubic_trig_r1 a0 b0 c0 d0 : ℝ) : ℂ),
     ((-Real.sqrt (-cubic_f a0 b0 c0) *
         (cubic_trig_m a0 b0 c0 d0 + cubic_trig_n a0 b0 c0 d0)
       - cubic_a13 a0 b0 : ℝ) : ℂ),
     ((-Real.sqrt (-cubic_f a0 b0 c0) *
         (cubic_trig_m a0 b0 c0 d0 - cubic_trig_n a0 b0 c0 d0)
       - cubic_a13 a0 b0 : ℝ) : ℂ))
  else
    (cubic_S a0 b0 c0 d0 + cubic_U a0 b0 c0 d0 - ((cubic_a13 a0 b0 : ℝ) : ℂ),
     -(0.5 : ℂ) * (cubic_S a0 b0 c0 d0 + cubic_U a0 b0 c0 d0)
       - ((cubic_a13 a0 b0 : ℝ) : ℂ)
       + (cubic_S a0 b0 c0 d0 - cubic_U a0 b0 c0 d0) * ((Real.sqrt 3 : ℝ) : ℂ)
         * ((0.5 : ℂ) * I),
     -(0.5 : ℂ) * (cubic_S a0 b0 c0 d0 + cubic_U a0 b0 c0 d0)
       - ((cubic_a13 a0 b0 : ℝ) : ℂ)
       - (cubic_S a0 b0 c0 d0 - cubic_U a0 b0 c0 d0) * ((Real.sqrt 3 : ℝ) : ℂ)
         * ((0.5 : ℂ) * I))

/-- `FQS.single_cubic_one`: only the first real root of
`a0*x^3 + b0*x^2 + c0*x + d0` (the form consumed by the quartic solver's
resolvent step). -/
def single_cubic_one (a0 b0 c0 d0 : ℝ) : ℂ :=
  if cubic_f a0 b0 c0 = 0 ∧ cubic_g a0 b0 c0 d0 = 0 ∧ cubic_h a0 b0 c0 d0 = 0 then
    ((-cbrtR (d0 / a0) : ℝ) : ℂ)
  else if cubic_h a0 b0 c0 d0 ≤ 0 then
    ((cubic_trig_r1 a0 b0 c0 d0 : ℝ) : ℂ)
  else
    cubic_S a0 b0 c0 d0 + cubic_U a0 b0 c0 d0 - ((cubic_a13 a0 b0 : ℝ) : ℂ)

/-- `FQS.multi_cubic` with `all_roots=True`, per batch element: identical
classification and formulas, with the `h > 0` branch computed on real
subarrays (`np.sqrt(h)` and the real `cubic_root`). -/
def multi_cubic (a0 b0 c0 d0 : ℝ) : ℂ × ℂ × ℂ :=
  if cubic_f a0 b0 c0 = 0 ∧ cubic_g a0 b0 c0 d0 = 0 ∧ cubic_h a0 b0 c0 d0 = 0 then
    (((-cbrtR (d0 / a0) : ℝ) : ℂ), ((-cbrtR (d0 / a0) : ℝ) : ℂ),
     ((-cbrtR (d0 / a0) : ℝ) : ℂ))
  else if cubic_h a0 b0 c0 d0 ≤ 0 then
    (((cubic_trig_r1 a0 b0 c0 d0 : ℝ) : ℂ),
     ((-Real.sqrt (-cubic_f a0 b0 c0) *
         (cubic_trig_m a0 b0 c0 d0 + cubic_trig_n a0 b0 c0 d0)
       - cubic_a13 a0 b0 : ℝ) : ℂ),
     ((-Real.sqrt (-cubic_f a0 b0 c0) *
         (cubic_trig_m a0 b0 c0 d0 - cubic_trig_n a0 b0 c0 d0)
       - cubic_a13 a0 b0 : ℝ) : ℂ))
  else
    (((cubic_Sr a0 b0 c0 d0 + cubic_Ur a0 b0 c0 d0 - cubic_a13 a0 b0 : ℝ) : ℂ),
     ((-0.5 * (cubic_Sr a0 b0 c0 d0 + cubic_Ur a0 b0 c0 d0) - cubic_a13 a0 b0 : ℝ) : ℂ)
       + ((cubic_Sr a0 b0 c0 d0 - cubic_Ur a0 b0 c0 d0 : ℝ) : ℂ)
         * ((Real.sqrt 3 : ℝ) : ℂ) * ((0.5 : ℂ) * I),
     ((-0.5 * (cubic_Sr a0 b0 c0 d0 + cubic_Ur a0 b0 c0 d0) - cubic_a13 a0 b0 : ℝ) : ℂ)
       - ((cubic_Sr a0 b0 c0 d0 - cubic_Ur a0 b0 c0 d0 : ℝ) : ℂ)
         * ((Real.sqrt 3 : ℝ) : ℂ) * ((0.5 : ℂ) * I))

/-- `FQS.multi_cubic` with `all_roots=False`, per batch element: the result
array has real dtype, and each masked branch stores a real value. -/
def multi_cubic_one (a0 b0 c0 d0 : ℝ) : ℝ :=
  if cubic_f a0 b0 c0 = 0 ∧ cubic_g a0 b0 c0 d0 = 0 ∧ cubic_h a0 b0 c0 d0 = 0 then
    -cbrtR (d0 / a0)
  else if cubic_h a0 b0 c0 d0 ≤ 0 then
    cubic_trig_r1 a0 b0 c0 d0
  else
    cubic_Sr a0 b0 c0 d0 + cubic_Ur a0 b0 c0 d0 - cubic_a13 a0 b0

/-- The quarter-coefficient `a0 = 0.25*a` of `FQS.single_quartic`
(depression offset). -/
def quartic_A0 (a0 b0 : ℝ) : ℝ := 0.25 * (b0 / a0)

/-- The resolvent-cubic coefficient `p = 3*a0^2 - 0.5*b` of
`FQS.single_quartic`. -/
def quartic_p (a0 b0 c0 : ℝ) : ℝ :=
  3 * (quartic_A0 a0 b0 * quartic_A0 a0 b0) - 0.5 * (c0 / a0)

/-- The resolvent-cubic coefficient `q = a*a0^2 - b*a0 + 0.5*c` of
`FQS.single_quartic`. -/
def quartic_q (a0 b0 c0 d0 : ℝ) : ℝ :=
  (b0 / a0) * (quartic_A0 a0 b0 * quartic_A0 a0 b0)
    - (c0 / a0) * quartic_A0 a0 b0 + 0.5 * (d0 / a0)

/-- The resolvent-cubic coefficient `r = 3*a0^4 - b*a0^2 + c*a0 - d` of
`FQS.single_quartic`. -/
def quartic_r (a0 b0 c0 d0 e0 : ℝ) : ℝ :=
  3 * ((quartic_A0 a0 b0 * quartic_A0 a0 b0) * (quartic_A0 a0 b0 * quartic_A0 a0 b0))
    - (c0 / a0) * (quartic_A0 a0 b0 * quartic_A0 a0 b0)
    + (d0 / a0) * quartic_A0 a0 b0 - e0 / a0

/-- The resolvent-cubic root `z0` extracted by `FQS.single_quartic` via
`single_cubic_one(1, p, r, p*r - 0.5*q*q)`. -/
def quartic_z0 (a0 b0 c0 d0 e0 : ℝ) : ℂ :=
  single_cubic_one 1 (quartic_p a0 b0 c0)
    (quartic_r a0 b0 c0 d0 e0)
    (quartic_p a0 b0 c0 * quartic_r a0 b0 c0 d0 e0
      - 0.5 * (quartic_q a0 b0 c0 d0 * quartic_q a0 b0 c0 d0))

/-- The intermediate `s = cmath.sqrt(2*p + 2*z0.real + 0j)` of
`FQS.single_quartic`. -/
def quartic_s (a0 b0 c0 d0 e0 : ℝ) : ℂ :=
  csqrt (((2 * quartic_p a0 b0 c0 + 2 * (quartic_z0 a0 b0 c0 d0 e0).re : ℝ)) : ℂ)

/-- The intermediate `t` of `FQS.single_quartic`: `z0*z0 + r` when `s == 0`
(degenerate fallback), else `-q/s`. -/
def quartic_t (a0 b0 c0 d0 e0 : ℝ) : ℂ :=
  if quartic_s a0 b0 c0 d0 e0 = 0 then
    quartic_z0 a0 b0 c0 d0 e0 * quartic_z0 a0 b0 c0 d0 e0
      + ((quartic_r a0 b0 c0 d0 e0 : ℝ) : ℂ)
  else
    -((quartic_q a0 b0 c0 d0 : ℝ) : ℂ) / quartic_s a0 b0 c0 d0 e0

/-- `FQS.single_quartic`: the four roots of
`a0*x^4 + b0*x^3 + c0*x^2 + d0*x + e0`, from the two quadratics
`(1, s, z0 + t)` and `(1, -s, z0 - t)`, shifted back by the depression
offset. -/
def single_quartic (a0 b0 c0 d0 e0 : ℝ) : ℂ × ℂ × ℂ × ℂ :=
  let A0 := quartic_A0 a0 b0
  let z0 := quartic_z0 a0 b0 c0 d0 e0
  let s := quartic_s a0 b0 c0 d0 e0
  let t := quartic_t a0 b0 c0 d0 e0
  let q1 := single_quadratic 1 s (z0 + t)
  let q2 := single_quadratic 1 (-s) (z0 - t)
  (q1.1 - (A0 : ℂ), q1.2 - (A0 : ℂ), q2.1 - (A0 : ℂ), q2.2 - (A0 : ℂ))

/-- `FQS.multi_quartic`, per batch element: the batched resolvent root is the
real value produced by `multi_cubic(..., all_roots=False)` (`z0.real` is
`z0` itself), and the quadratics are the batched ones. -/
def multi_quartic (a0 b0 c0 d0 e0 : ℝ) : ℂ × ℂ × ℂ × ℂ :=
  let A0 := quartic_A0 a0 b0
  let p := quartic_p a0 b0 c0
  let q := quartic_q a0 b0 c0 d0
  let r := quartic_r a0 b0 c0 d0 e0
  let z0 : ℝ := multi_cubic_one 1 p r (p * r - 0.5 * (q * q))
  let s := csqrt (((2 * p + 2 * z0 : ℝ)) : ℂ)
  let t : ℂ := if s = 0 then ((z0 : ℝ) : ℂ) * ((z0 : ℝ) : ℂ) + ((r : ℝ) : ℂ)
               else -((q : ℝ) : ℂ) / s
  let q1 := multi_quadratic 1 s (((z0 : ℝ) : ℂ) + t)
  let q2 := multi_quadratic 1 (-s) (((z0 : ℝ) : ℂ) - t)
  (q1.1 - (A0 : ℂ), q1.2 - (A0 : ℂ), q2.1 - (A0 : ℂ), q2.2 - (A0 : ℂ))

/-- The error message raised by `FQS.cubic_roots` on a coefficient row that
does not have exactly 4 entries. -/
def cubicShapeMsg (n : ℕ) : String :=
  "Expected 3rd order polynomial with 4 coefficients, got " ++ toString n ++ "."

/-- The error message raised by `FQS.quartic_roots` on a coefficient row that
does not have exactly 5 entries. -/
def quarticShapeMsg (n : ℕ) : String :=
  "Expected 4th order polynomial with 5 coefficients, got " ++ toString n ++ "."

/-- `FQS.cubic_roots`: dispatcher over an `nrows × ncols` coefficient matrix
`M` (a 1-D input corresponds to `nrows = 1`).  It checks the column count
before any root computation, then uses the single-equation solver for fewer
than 100 rows and the batched solver otherwise. -/
def cubic_roots (nrows ncols : ℕ) (M : ℕ → ℕ → ℝ) :
    Except String (ℕ → ℂ × ℂ × ℂ) :=
  if ncols = 4 then
    if nrows < 100 then
      Except.ok (fun i => single_cubic (M i 0) (M i 1) (M i 2) (M i 3))
    else
      Except.ok (fun i => multi_cubic (M i 0) (M i 1) (M i 2) (M i 3))
  else
    Except.error (cubicShapeMsg ncols)

/-- `FQS.quartic_roots`: dispatcher over an `nrows × ncols` coefficient
matrix `M` (a 1-D input corresponds to `nrows = 1`). -/
def quartic_roots (nrows ncols : ℕ) (M : ℕ → ℕ → ℝ) :
    Except String (ℕ → ℂ × ℂ × ℂ × ℂ) :=
  if ncols = 5 then
    if nrows < 100 then
      Except.ok (fun i => single_quartic (M i 0) (M i 1) (M i 2) (M i 3) (M i 4))
    else
      Except.ok (fun i => multi_quartic (M i 0) (M i 1) (M i 2) (M i 3) (M i 4))
  else
    Except.error (quarticShapeMsg ncols)

end FQS

/-- Evaluation of the cubic `a0*x^3 + b0*x^2 + c0*x + d0` at a complex
point. -/
def cubicEval (a0 b0 c0 d0 : ℝ) (x : ℂ) : ℂ :=
  (a0 : ℂ) * x^3 + (b0 : ℂ) * x^2 + (c0 : ℂ) * x + (d0 : ℂ)

/-- Evaluation of the quartic `a0*x^4 + b0*x^3 + c0*x^2 + d0*x + e0` at a
complex point. -/
def quarticEval (a0 b0 c0 d0 e0 : ℝ) (x : ℂ) : ℂ :=
  (a0 : ℂ) * x^4 + (b0 : ℂ) * x^3 + (c0 : ℂ) * x^2 + (d0 : ℂ) * x + (e0 : ℂ)

/-! ## The energy-balance stepping loops

`calcSEB` (and the melt pre-calculation loop of `makeSpinFiles`, which shares
its body) builds at every time step the quartic `pmat = (a, 0, 0, 1, e)` with
`a = SBC*dt/(CP_I*m)` and `e = -1*(flux*dt/(CP_I*m) + T_0)`, zeroes NaN
entries of `pmat`, solves it with `FQS.quartic_roots`, keeps the real
strictly-positive roots (`np.isreal(r) & (r > 0)`), overwrites the kept roots
with NaN when `e` is NaN, and then branches on `Tnew >= 273.15`.

A possibly-NaN float is an `Option ℝ` (`none` = NaN).  The step result is
`(temperature, melt mass, printed)`; `printed` records that the
`try/except` fallback fired: with the empty `Tnew` produced when no root is
selected, `Tnew >= 273.15` is falsy (legacy NumPy truthiness), the scalar
assignment `TcalcH[kk] = Tnew` raises and is caught, the step index and
`Tnew` are printed, and the preinitialized `TcalcH[kk] = 0.0` survives with
`meltmassH[kk] = 0`.  (A `Tnew` with two or more entries, which would make
the array truth test itself raise, is mapped to the same triple; it is
provably unreachable for the loop's quartics.) -/

/-- Stefan–Boltzmann constant as in the source, `SBC = 5.67e-8`. -/
def SBC : ℝ := 5.67e-8

/-- Heat capacity of ice as in the source, `CP_I = 2097.0`. -/
def CP_I : ℝ := 2097.0

/-- Latent heat of fusion as in the source, `LF_I = 333500.0`. -/
def LF_I : ℝ := 333500.0

/-- The leading quartic coefficient `a = SBC*dt/(CP_I*m)` built by the
loop. -/
def sebA (dt m : ℝ) : ℝ := SBC * dt / (CP_I * m)

/-- The constant quartic coefficient `e = -1*(flux*dt/(CP_I*m) + T_0)`,
NaN when the flux or the previous temperature is NaN. -/
def sebE (dt m : ℝ) (F Tprev : Option ℝ) : Option ℝ :=
  match F, Tprev with
  | some Fk, some T0 => some (-1 * (Fk * dt / (CP_I * m) + T0))
  | _, _ => none

/-- The `pmat` vector `(a, 0, 0, 1, e)` after `pmat[np.isnan(pmat)] = 0`
(only `e` can be NaN; a NaN `e` becomes `0`). -/
def sebPmat (dt m : ℝ) (F Tprev : Option ℝ) : ℕ → ℝ := fun j =>
  if j = 0 then sebA dt m
  else if j = 3 then 1
  else if j = 4 then (sebE dt m F Tprev).getD 0
  else 0

/-- The root quadruple returned by `fqs.quartic_roots(pmat)` (one row of
width 5, hence the single-equation path). -/
def sebRoots (dt m : ℝ) (F Tprev : Option ℝ) : ℂ × ℂ × ℂ × ℂ :=
  ((FQS.quartic_roots 1 5 (fun _ j => sebPmat dt m F Tprev j)).toOption.getD
    (fun _ => (0, 0, 0, 0))) 0

/-- The root selection `r[(np.isreal(r)) & (r > 0)]`: the returned roots
with zero imaginary part and strictly positive real part, in order. -/
def sebSel (dt m : ℝ) (F Tprev : Option ℝ) : List ℂ :=
  [(sebRoots dt m F Tprev).1, (sebRoots dt m F Tprev).2.1,
   (sebRoots dt m F Tprev).2.2.1, (sebRoots dt m F Tprev).2.2.2].filter
    (fun z => decide (z.im = 0 ∧ 0 < z.re))

/-- `Tnew` after `Tnew[np.isnan(e)] = np.nan`: the selected real parts, all
overwritten by NaN when `e` is NaN. -/
def sebTnew (dt m : ℝ) (F Tprev : Option ℝ) : List (Option ℝ) :=
  if (sebE dt m F Tprev).isNone then (sebSel dt m F Tprev).map (fun _ => none)
  else (sebSel dt m F Tprev).map (fun z => some z.re)

/-- One step of the energy-balance loop: the emitted
`(temperature, melt mass, printed)` triple. -/
def sebStep (dt m : ℝ) (F Tprev : Option ℝ) : Option ℝ × ℝ × Bool :=
  match sebTnew dt m F Tprev with
  | [v] =>
    if (match v with | some x => decide ((273.15 : ℝ) ≤ x) | none => false) then
      (some 273.15, (F.getD 0 - SBC * (273.15 : ℝ)^4) / LF_I * dt, false)
    else
      (v, 0, false)
  | _ => (some 0, 0, true)

/-- The summed net flux `flux_df1 = SWGNT + LWGAB + HFLUX + EFLUX + GHTSKIN`
of `calcSEB` (NaN-propagating). -/
def calcSEBflux (SWGNT LWGAB HFLUX EFLUX GHTSKIN : ℕ → Option ℝ) : ℕ → Option ℝ :=
  fun k =>
    match SWGNT k, LWGAB k, HFLUX k, EFLUX k, GHTSKIN k with
    | some x1, some x2, some x3, some x4, some x5 => some (x1 + x2 + x3 + x4 + x5)
    | _, _, _, _, _ => none

/-- The `calcSEB` loop over a net-flux series: step `k`'s previous
temperature is `TS[0]` at `k = 0` and the step-`(k-1)` output `TcalcH[k-1]`
afterwards; the layer mass is `m = rhos*dz`. -/
def calcSEBrun (dt dz rhos : ℝ) (flux : ℕ → Option ℝ) (TS : ℕ → ℝ) :
    ℕ → Option ℝ × ℝ × Bool
  | 0 => sebStep dt (rhos * dz) (flux 0) (some (TS 0))
  | k + 1 => sebStep dt (rhos * dz) (flux (k + 1)) (calcSEBrun dt dz rhos flux TS k).1

/-- The temperature series `TcalcH` emitted by `calcSEB`. -/
def calcSEBtemp (dt dz rhos : ℝ) (flux : ℕ → Option ℝ) (TS : ℕ → ℝ) (k : ℕ) :
    Option ℝ :=
  (calcSEBrun dt dz rhos flux TS k).1

/-- The melt-mass series `meltmassH` emitted by `calcSEB`. -/
def calcSEBmelt (dt dz rhos : ℝ) (flux : ℕ → Option ℝ) (TS : ℕ → ℝ) (k : ℕ) : ℝ :=
  (calcSEBrun dt dz rhos flux TS k).2.1

/-- The previous temperature used by the melt pre-calculation loop of
`makeSpinFiles`: `dts[kk]` at `kk = 0` and `dts[kk-1]` afterwards, where
`dts = df_CLIM.TSKIN.values` is the raw input skin-temperature series. -/
def makeSpin_T0 (dts : ℕ → ℝ) (k : ℕ) : ℝ :=
  if k = 0 then dts 0 else dts (k - 1)

/-- One step of the `makeSpinFiles` melt pre-calculation loop: same body as
`calcSEB`'s step, but with the hard-coded layer mass `m = 400*0.08` and the
previous temperature read from the input series `dts`. -/
def makeSpinStep (dt : ℝ) (flux : ℕ → Option ℝ) (dts : ℕ → ℝ) (k : ℕ) :
    Option ℝ × ℝ × Bool :=
  sebStep dt (400 * 0.08) (flux k) (some (makeSpin_T0 dts k))

/-- A concrete step duration for which the loop's leading coefficient
`a = SBC*dt/(CP_I*m)` equals `1` when `m = 20` (i.e. `rhos = 400`,
`dz = 0.05`). -/
def dtA1 : ℝ := 2097 * 20 / 5.67e-8

/-- A concrete step duration for which the loop's leading coefficient
equals `1/3` when `m = 20`. -/
def dtA13 : ℝ := 2097 * 20 / (3 * 5.67e-8)

/-! ## Basic properties of the numeric helpers -/

theorem cbrtR_zero : cbrtR 0 = 0 := by
  rw [cbrtR, if_pos le_rfl, Real.zero_rpow (by norm_num : ((1:ℝ)/3) ≠ 0)]

theorem cbrtR_neg (x : ℝ) : cbrtR (-x) = -cbrtR x := by
  rcases lt_trichotomy x 0 with hx | rfl | hx
  · rw [cbrtR, cbrtR, if_pos (by linarith), if_neg (by linarith), neg_neg]
  · simp [cbrtR_zero]
  · rw [cbrtR, cbrtR, if_neg (by linarith), if_pos hx.le, neg_neg]

theorem cbrtR_cube (x : ℝ) : cbrtR x ^ 3 = x := by
  have key : ∀ y : ℝ, 0 ≤ y → (y ^ ((1:ℝ)/3)) ^ 3 = y := by
    intro y hy
    rw [← Real.rpow_natCast (y ^ ((1:ℝ)/3)) 3, ← Real.rpow_mul hy]
    norm_num
  rcases le_or_lt 0 x with hx | hx
  · rw [cbrtR, if_pos hx]; exact key x hx
  · rw [cbrtR, if_neg (not_le.mpr hx)]
    have h1 : (0:ℝ) ≤ -x := by linarith
    have h2 := key (-x) h1
    nlinarith [h2]

theorem cbrtR_of_cube (x : ℝ) : cbrtR (x ^ 3) = x := by
  have key : ∀ y : ℝ, 0 ≤ y → cbrtR (y ^ 3) = y := by
    intro y hy
    have h3 : (0:ℝ) ≤ y ^ 3 := by positivity
    rw [cbrtR, if_pos h3, ← Real.rpow_natCast y 3, ← Real.rpow_mul hy]
    norm_num
  rcases le_or_lt 0 x with hx | hx
  · exact key x hx
  · have h1 : (0:ℝ) ≤ -x := by linarith
    have h2 : x ^ 3 = -((-x) ^ 3) := by ring
    rw [h2, cbrtR_neg, key (-x) h1, neg_neg]

theorem cbrtR_mul_nonneg {x y : ℝ} (hx : 0 ≤ x) (hy : 0 ≤ y) :
    cbrtR (x * y) = cbrtR x * cbrtR y := by
  rw [cbrtR, cbrtR, cbrtR, if_pos hx, if_pos hy, if_pos (mul_nonneg hx hy)]
  exact Real.mul_rpow hx hy

theorem cbrtR_mul (x y : ℝ) : cbrtR (x * y) = cbrtR x * cbrtR y := by
  rcases le_or_lt 0 x with hx | hx <;> rcases le_or_lt 0 y with hy | hy
  · exact cbrtR_mul_nonneg hx hy
  · have h1 : x * y = -(x * -y) := by ring
    have e2 : cbrtR (-y) = -cbrtR y := cbrtR_neg y
    rw [h1, cbrtR_neg, cbrtR_mul_nonneg hx (by linarith : (0:ℝ) ≤ -y), e2]
    ring
  · have h1 : x * y = -(-x * y) := by ring
    have e1 : cbrtR (-x) = -cbrtR x := cbrtR_neg x
    rw [h1, cbrtR_neg, cbrtR_mul_nonneg (by linarith : (0:ℝ) ≤ -x) hy, e1]
    ring
  · have h1 : x * y = -x * -y := by ring
    have e1 : cbrtR (-x) = -cbrtR x := cbrtR_neg x
    have e2 : cbrtR (-y) = -cbrtR y := cbrtR_neg y
    rw [h1, cbrtR_mul_nonneg (by linarith : (0:ℝ) ≤ -x) (by linarith : (0:ℝ) ≤ -y),
        e1, e2]
    ring

theorem csqrt_zero : csqrt 0 = 0 := by
  rw [csqrt, Complex.zero_cpow (by norm_num : ((1:ℂ)/2) ≠ 0)]

theorem csqrt_sq (z : ℂ) : csqrt z ^ 2 = z := by
  have h := Complex.cpow_nat_inv_pow z (by norm_num : (2:ℕ) ≠ 0)
  have h2 : (((2:ℕ) : ℂ))⁻¹ = (1:ℂ)/2 := by norm_num
  rw [csqrt, ← h2]
  exact_mod_cast h

theorem csqrt_eq_zero_iff (z : ℂ) : csqrt z = 0 ↔ z = 0 := by
  constructor
  · intro h
    have h2 := csqrt_sq z
    rw [h] at h2
    simpa using h2.symm
  · intro h
    rw [h, csqrt_zero]

theorem csqrt_one : csqrt 1 = 1 := by
  rw [csqrt, Complex.one_cpow]

theorem csqrt_ofReal_nonneg {x : ℝ} (hx : 0 ≤ x) :
    csqrt (x : ℂ) = ((Real.sqrt x : ℝ) : ℂ) := by
  rw [csqrt, show ((1:ℂ)/2) = (((1:ℝ)/2 : ℝ) : ℂ) by push_cast; ring,
      ← Complex.ofReal_cpow hx]
  exact congrArg _ (by rw [Real.sqrt_eq_rpow])

theorem csqrt_ofReal_neg {x : ℝ} (hx : x < 0) :
    csqrt (x : ℂ) = ((Real.sqrt (-x) : ℝ) : ℂ) * I := by
  have hx0 : (x : ℂ) ≠ 0 := Complex.ofReal_ne_zero.mpr (ne_of_lt hx)
  have habs : Complex.abs (x : ℂ) = -x := by
    rw [Complex.abs_ofReal]; exact abs_of_neg hx
  have harg : Complex.arg (x : ℂ) = Real.pi := Complex.arg_ofReal_of_neg hx
  have hlog : Complex.log (x : ℂ) * ((1:ℂ)/2)
      = ((Real.log (-x) / 2 : ℝ) : ℂ) + ((Real.pi / 2 : ℝ) : ℂ) * I := by
    rw [Complex.log, habs, harg]; push_cast; ring
  rw [csqrt, Complex.cpow_def_of_ne_zero hx0, hlog, Complex.exp_add,
      Complex.exp_mul_I, ← Complex.ofReal_exp, ← Complex.ofReal_cos,
      ← Complex.ofReal_sin, Real.cos_pi_div_two, Real.sin_pi_div_two]
  have hexp : Real.exp (Real.log (-x) / 2) = Real.sqrt (-x) := by
    rw [Real.sqrt_eq_rpow, Real.rpow_def_of_pos (by linarith : (0:ℝ) < -x)]
    ring_nf
  rw [hexp]; push_cast; ring

theorem ccbrt_ofReal (x : ℝ) : ccbrt (x : ℂ) = ((cbrtR x : ℝ) : ℂ) := by
  rcases le_or_lt 0 x with hx | hx
  · rw [ccbrt, if_pos (by simpa using hx), cbrtR, if_pos hx,
        show ((1:ℂ)/3) = (((1:ℝ)/3 : ℝ) : ℂ) by push_cast; ring,
        ← Complex.ofReal_cpow hx]
  · rw [ccbrt, if_neg (by simpa using not_le.mpr hx), cbrtR, if_neg (not_le.mpr hx)]
    have h1 : (0:ℝ) ≤ -x := by linarith
    rw [show (-(x:ℂ)) = ((-x : ℝ) : ℂ) by push_cast; ring,
        show ((1:ℂ)/3) = (((1:ℝ)/3 : ℝ) : ℂ) by push_cast; ring,
        ← Complex.ofReal_cpow h1]
    push_cast; ring

/-! ## Correctness of the cubic solver's real-root extraction -/

namespace FQS

/-- Unfolding lemma for `cubic_h`. -/
theorem cubic_h_eq (a0 b0 c0 d0 : ℝ) :
    cubic_h a0 b0 c0 d0 = 0.25 * cubic_g a0 b0 c0 d0 * cubic_g a0 b0 c0 d0
      + cubic_f a0 b0 c0 * cubic_f a0 b0 c0 * cubic_f a0 b0 c0 := rfl

/-- In the `h <= 0` branch (and not the triple-root branch), `f` is
strictly negative, so `j = sqrt(-f)` is a genuine positive square root. -/
theorem cubic_m2_f_neg {a0 b0 c0 d0 : ℝ}
    (hm1 : ¬(cubic_f a0 b0 c0 = 0 ∧ cubic_g a0 b0 c0 d0 = 0 ∧ cubic_h a0 b0 c0 d0 = 0))
    (hle : cubic_h a0 b0 c0 d0 ≤ 0) : cubic_f a0 b0 c0 < 0 := by
  by_contra hf
  push_neg at hf
  have hfff : 0 ≤ cubic_f a0 b0 c0 * cubic_f a0 b0 c0 * cubic_f a0 b0 c0 :=
    mul_nonneg (mul_nonneg hf hf) hf
  have hgg : 0 ≤ 0.25 * cubic_g a0 b0 c0 d0 * cubic_g a0 b0 c0 d0 := by
    nlinarith [sq_nonneg (cubic_g a0 b0 c0 d0)]
  have h1 : 0 ≤ cubic_h a0 b0 c0 d0 := by rw [cubic_h_eq]; linarith
  have h2 : cubic_h a0 b0 c0 d0 = 0 := le_antisymm hle h1
  rw [cubic_h_eq] at h2
  have h3 : cubic_g a0 b0 c0 d0 = 0 := by nlinarith [sq_nonneg (cubic_g a0 b0 c0 d0)]
  have h4 : cubic_f a0 b0 c0 = 0 := by
    by_contra hf0
    have hfpos : 0 < cubic_f a0 b0 c0 := lt_of_le_of_ne hf (Ne.symm hf0)
    nlinarith [mul_pos (mul_pos hfpos hfpos) hfpos]
  exact hm1 ⟨h4, h3, by rw [cubic_h_eq, h3, h4]; ring⟩

/-- The depressed-cubic substitution: evaluating the normalized cubic at
`y - a13` gives `y^3 + 3*f*y + g`. -/
theorem depressed_identity (a0 b0 c0 d0 y : ℝ) :
    (y - cubic_a13 a0 b0)^3 + (b0/a0) * (y - cubic_a13 a0 b0)^2
      + (c0/a0) * (y - cubic_a13 a0 b0) + d0/a0
    = y^3 + 3 * cubic_f a0 b0 c0 * y + cubic_g a0 b0 c0 d0 := by
  simp only [cubic_f, cubic_g, cubic_a13]
  ring

/-- The trigonometric branch solves the depressed cubic: for `f < 0` and
`h <= 0`, `y = 2*sqrt(-f)*cos(arccos(-g/(2*sqrt(-f)^3))/3)` satisfies
`y^3 + 3*f*y + g = 0`. -/
theorem trig_depressed_root (f g : ℝ) (hf : f < 0) (hh : 0.25*g*g + f*f*f ≤ 0) :
    (2 * Real.sqrt (-f) * Real.cos (((1:ℝ)/3) * Real.arccos (-0.5 * g /
        (Real.sqrt (-f) * Real.sqrt (-f) * Real.sqrt (-f))))) ^ 3
      + 3 * f * (2 * Real.sqrt (-f) * Real.cos (((1:ℝ)/3) * Real.arccos (-0.5 * g /
        (Real.sqrt (-f) * Real.sqrt (-f) * Real.sqrt (-f))))) + g = 0 := by
  have hfpos : 0 < -f := by linarith
  set j := Real.sqrt (-f) with hj_def
  have hjpos : 0 < j := Real.sqrt_pos.mpr hfpos
  have hj2 : j * j = -f := Real.mul_self_sqrt hfpos.le
  have hj6 : (j*j*j)^2 = (-f)^3 := by
    have : (j*j*j)^2 = (j*j)*(j*j)*(j*j) := by ring
    rw [this, hj2]; ring
  set A := -0.5 * g / (j*j*j) with hA_def
  have hjjj : j*j*j ≠ 0 := by positivity
  have hA_mul : A * (j*j*j) = -0.5*g := by
    rw [hA_def]; field_simp
  have h1 : A^2 * (j*j*j)^2 = 0.25 * g^2 := by
    linear_combination (A*(j*j*j) - 0.5*g) * hA_mul
  have hA_sq : A^2 ≤ 1 := by
    nlinarith [pow_pos hfpos 3, hj6, h1]
  have hA1 : -1 ≤ A := by nlinarith [hA_sq]
  have hA2 : A ≤ 1 := by nlinarith [hA_sq]
  have hcos : Real.cos (Real.arccos A) = A := Real.cos_arccos hA1 hA2
  set m := Real.cos (((1:ℝ)/3) * Real.arccos A) with hm_def
  have hm3 : m^3 = (A + 3*m)/4 := by
    have ht := Real.cos_three_mul (((1:ℝ)/3) * Real.arccos A)
    rw [show (3:ℝ) * (((1:ℝ)/3) * Real.arccos A) = Real.arccos A by ring, hcos] at ht
    rw [← hm_def] at ht
    linarith
  have expand : (2*j*m)^3 + 3*f*(2*j*m) + g = 8*(j*j*j)*(m^3) + 6*f*j*m + g := by
    ring
  rw [expand, hm3]
  linear_combination 2 * hA_mul + 6*j*m * hj2

/-- The Cardano branch solves the depressed cubic: for `h > 0` with
`h = g^2/4 + f^3`, `y = cbrt(-g/2 + sqrt h) + cbrt(-g/2 - sqrt h)`
satisfies `y^3 + 3*f*y + g = 0`. -/
theorem cardano_depressed_root (f g h : ℝ) (hh_def : h = 0.25*g*g + f*f*f)
    (hpos : 0 < h) :
    (cbrtR (-0.5*g + Real.sqrt h) + cbrtR (-0.5*g - Real.sqrt h)) ^ 3
      + 3 * f * (cbrtR (-0.5*g + Real.sqrt h) + cbrtR (-0.5*g - Real.sqrt h)) + g
      = 0 := by
  have hs2 : Real.sqrt h ^ 2 = h := Real.sq_sqrt hpos.le
  have hprod : (-0.5*g + Real.sqrt h) * (-0.5*g - Real.sqrt h) = (-f)^3 := by
    linear_combination - hs2 - hh_def
  have hS3 : cbrtR (-0.5*g + Real.sqrt h) ^ 3 = -0.5*g + Real.sqrt h :=
    cbrtR_cube _
  have hU3 : cbrtR (-0.5*g - Real.sqrt h) ^ 3 = -0.5*g - Real.sqrt h :=
    cbrtR_cube _
  have hSU : cbrtR (-0.5*g + Real.sqrt h) * cbrtR (-0.5*g - Real.sqrt h) = -f := by
    rw [← cbrtR_mul, hprod, show ((-f)^3 : ℝ) = (-f)^3 from rfl, cbrtR_of_cube]
  set S := cbrtR (-0.5*g + Real.sqrt h)
  set U := cbrtR (-0.5*g - Real.sqrt h)
  linear_combination hS3 + hU3 + (3*(S+U)) * hSU

/-- In the `h > 0` branch the `cmath`-computed Cardano terms are the real
ones: `S` is real. -/
theorem cubic_S_ofReal {a0 b0 c0 d0 : ℝ} (hpos : 0 < cubic_h a0 b0 c0 d0) :
    cubic_S a0 b0 c0 d0 = ((cubic_Sr a0 b0 c0 d0 : ℝ) : ℂ) := by
  rw [cubic_S, cubic_Sr, csqrt_ofReal_nonneg hpos.le,
      show -(0.5:ℂ) * ((cubic_g a0 b0 c0 d0 : ℝ) : ℂ)
          + ((Real.sqrt (cubic_h a0 b0 c0 d0) : ℝ) : ℂ)
        = (((-0.5 * cubic_g a0 b0 c0 d0 + Real.sqrt (cubic_h a0 b0 c0 d0)) : ℝ) : ℂ) by
        push_cast
        norm_num,
      ccbrt_ofReal]

/-- In the `h > 0` branch the `cmath`-computed Cardano terms are the real
ones: `U` is real. -/
theorem cubic_U_ofReal {a0 b0 c0 d0 : ℝ} (hpos : 0 < cubic_h a0 b0 c0 d0) :
    cubic_U a0 b0 c0 d0 = ((cubic_Ur a0 b0 c0 d0 : ℝ) : ℂ) := by
  rw [cubic_U, cubic_Ur, csqrt_ofReal_nonneg hpos.le,
      show -(0.5:ℂ) * ((cubic_g a0 b0 c0 d0 : ℝ) : ℂ)
          - ((Real.sqrt (cubic_h a0 b0 c0 d0) : ℝ) : ℂ)
        = (((-0.5 * cubic_g a0 b0 c0 d0 - Real.sqrt (cubic_h a0 b0 c0 d0)) : ℝ) : ℂ) by
        push_cast
        norm_num,
      ccbrt_ofReal]

/-- `FQS.single_cubic_one` always returns (the complex image of) a real
number, and that number is a root of the normalized cubic
`y^3 + (b0/a0)*y^2 + (c0/a0)*y + (d0/a0)`. -/
theorem single_cubic_one_is_real_root (a0 b0 c0 d0 : ℝ) :
    ∃ y : ℝ, FQS.single_cubic_one a0 b0 c0 d0 = ((y : ℝ) : ℂ) ∧
      y^3 + (b0/a0) * y^2 + (c0/a0) * y + d0/a0 = 0 := by
  rw [FQS.single_cubic_one]
  split_ifs with h1 h2
  · -- triple-root branch: f = g = h = 0
    obtain ⟨hf, hg, -⟩ := h1
    refine ⟨-cbrtR (d0 / a0), rfl, ?_⟩
    simp only [cubic_f, cubic_g, cubic_a13] at hf hg
    have hc' : d0/a0 = ((b0/a0) * ((1:ℝ)/3))^3 := by
      linear_combination hg + 3*((b0/a0) * ((1:ℝ)/3)) * hf
    rw [hc', cbrtR_of_cube]
    linear_combination (-3 * ((b0/a0) * ((1:ℝ)/3))) * hf
  · -- trigonometric branch: h <= 0
    refine ⟨FQS.cubic_trig_r1 a0 b0 c0 d0, rfl, ?_⟩
    have hf := cubic_m2_f_neg h1 h2
    have hh : 0.25 * cubic_g a0 b0 c0 d0 * cubic_g a0 b0 c0 d0
        + cubic_f a0 b0 c0 * cubic_f a0 b0 c0 * cubic_f a0 b0 c0 ≤ 0 := by
      rw [← cubic_h_eq]; exact h2
    have key := trig_depressed_root (cubic_f a0 b0 c0) (cubic_g a0 b0 c0 d0) hf hh
    have hid := depressed_identity a0 b0 c0 d0
      (2 * Real.sqrt (-cubic_f a0 b0 c0) * FQS.cubic_trig_m a0 b0 c0 d0)
    simp only [cubic_trig_r1, cubic_trig_m] at key hid ⊢
    linear_combination hid + key
  · -- Cardano branch: h > 0
    push_neg at h2
    refine ⟨FQS.cubic_Sr a0 b0 c0 d0 + FQS.cubic_Ur a0 b0 c0 d0 - FQS.cubic_a13 a0 b0,
      ?_, ?_⟩
    · rw [cubic_S_ofReal h2, cubic_U_ofReal h2]
      push_cast; ring
    · have hh_def : cubic_h a0 b0 c0 d0
          = 0.25 * cubic_g a0 b0 c0 d0 * cubic_g a0 b0 c0 d0
            + cubic_f a0 b0 c0 * cubic_f a0 b0 c0 * cubic_f a0 b0 c0 := cubic_h_eq _ _ _ _
      have key := cardano_depressed_root (cubic_f a0 b0 c0) (cubic_g a0 b0 c0 d0)
        (cubic_h a0 b0 c0 d0) hh_def h2
      have hid := depressed_identity a0 b0 c0 d0
        (FQS.cubic_Sr a0 b0 c0 d0 + FQS.cubic_Ur a0 b0 c0 d0)
      simp only [cubic_Sr, cubic_Ur] at key hid ⊢
      linear_combination hid + key

end FQS

/-! ## Correctness of the quartic solver for `s ≠ 0` -/

namespace FQS

/-- Explicit form of `single_quadratic`. -/
theorem single_quadratic_eq (a0 b0 c0 : ℂ) :
    single_quadratic a0 b0 c0
      = (-0.5 * (b0/a0) - csqrt (-0.5 * (b0/a0) * (-0.5 * (b0/a0)) - c0/a0),
         -0.5 * (b0/a0) + csqrt (-0.5 * (b0/a0) * (-0.5 * (b0/a0)) - c0/a0)) := rfl

/-- `multi_quadratic` computes exactly the same formula as
`single_quadratic` (`np.sqrt(delta + 0j)` is the same principal square
root as `cmath.sqrt(delta)`). -/
theorem multi_quadratic_eq_single (a0 b0 c0 : ℂ) :
    multi_quadratic a0 b0 c0 = single_quadratic a0 b0 c0 := rfl

/-- The monic quadratic solved by `single_quadratic 1 s A` factors through
its two returned roots. -/
theorem single_quadratic_mul_factor (s A y : ℂ) :
    (y - (single_quadratic 1 s A).1) * (y - (single_quadratic 1 s A).2)
      = y^2 + s*y + A := by
  rw [single_quadratic_eq]
  have hs := csqrt_sq (-0.5 * (s/1) * (-0.5 * (s/1)) - A/1)
  simp only [div_one] at hs ⊢
  linear_combination - hs

/-- The resolvent root `z0` of `single_quartic` is real and satisfies the
resolvent cubic `z^3 + p*z^2 + r*z + (p*r - q^2/2) = 0`. -/
theorem quartic_resolvent_root (a0 b0 c0 d0 e0 : ℝ) :
    ∃ z : ℝ, quartic_z0 a0 b0 c0 d0 e0 = ((z : ℝ) : ℂ) ∧
      z^3 + quartic_p a0 b0 c0 * z^2 + quartic_r a0 b0 c0 d0 e0 * z
        + (quartic_p a0 b0 c0 * quartic_r a0 b0 c0 d0 e0
            - 0.5 * (quartic_q a0 b0 c0 d0 * quartic_q a0 b0 c0 d0)) = 0 := by
  obtain ⟨y, hy, hroot⟩ := single_cubic_one_is_real_root 1 (quartic_p a0 b0 c0)
    (quartic_r a0 b0 c0 d0 e0)
    (quartic_p a0 b0 c0 * quartic_r a0 b0 c0 d0 e0
      - 0.5 * (quartic_q a0 b0 c0 d0 * quartic_q a0 b0 c0 d0))
  refine ⟨y, by rw [quartic_z0]; exact hy, ?_⟩
  simp only [div_one] at hroot
  linarith [hroot]

/-- If the intermediate `s` vanishes then the resolvent coefficient `q`
vanishes (so `t = -q/s` is only skipped when `q = 0`). -/
theorem quartic_q_eq_zero_of_s {a0 b0 c0 d0 e0 : ℝ}
    (hs : quartic_s a0 b0 c0 d0 e0 = 0) : quartic_q a0 b0 c0 d0 = 0 := by
  obtain ⟨z, hz, hroot⟩ := quartic_resolvent_root a0 b0 c0 d0 e0
  have hre : (quartic_z0 a0 b0 c0 d0 e0).re = z := by rw [hz]; simp
  rw [quartic_s, csqrt_eq_zero_iff, Complex.ofReal_eq_zero, hre] at hs
  have hzp : z = -quartic_p a0 b0 c0 := by linarith
  have hq2 : quartic_q a0 b0 c0 d0 * quartic_q a0 b0 c0 d0 = 0 := by
    linear_combination (-2) * hroot
      + (2*z^2 + 2*quartic_r a0 b0 c0 d0 e0) * hzp
  exact mul_self_eq_zero.mp hq2

/-- The depression substitution for the quartic: the original quartic at
`x` equals `a0` times the depressed quartic `y^4 - 2p*y^2 + 2q*y - r` at
`y = x + A0`. -/
theorem quartic_depression (a0 b0 c0 d0 e0 : ℝ) (ha : a0 ≠ 0) (x : ℂ) :
    quarticEval a0 b0 c0 d0 e0 x
      = ((a0 : ℝ) : ℂ) * ((x + ((quartic_A0 a0 b0 : ℝ) : ℂ))^4
        - 2 * ((quartic_p a0 b0 c0 : ℝ) : ℂ) * (x + ((quartic_A0 a0 b0 : ℝ) : ℂ))^2
        + 2 * ((quartic_q a0 b0 c0 d0 : ℝ) : ℂ) * (x + ((quartic_A0 a0 b0 : ℝ) : ℂ))
        - ((quartic_r a0 b0 c0 d0 e0 : ℝ) : ℂ)) := by
  have h : (a0 : ℂ) ≠ 0 := Complex.ofReal_ne_zero.mpr ha
  have hu : (a0 : ℂ) * ((a0 : ℂ))⁻¹ = 1 := mul_inv_cancel₀ h
  simp only [quarticEval, quartic_p, quartic_q, quartic_r, quartic_A0,
    show (0.25:ℝ) = 1/4 by norm_num, show (0.5:ℝ) = 1/2 by norm_num]
  push_cast
  simp only [div_eq_mul_inv]
  linear_combination (-((b0:ℂ)*x^3 + (c0:ℂ)*x^2 + (d0:ℂ)*x + (e0:ℂ))) * hu

/-- The two quadratics assembled by the quartic solver multiply to the
depressed quartic, given the three algebraic facts `s^2 = 2p + 2z`,
`s*t = -q` and `t^2 = z^2 + r`. -/
theorem quartic_two_quadratics (P Q R Z S T : ℂ) (h1 : S^2 = 2*P + 2*Z)
    (h2 : S*T = -Q) (h3 : T^2 = Z^2 + R) (y : ℂ) :
    (y^2 + S*y + (Z + T)) * (y^2 - S*y + (Z - T))
      = y^4 - 2*P*y^2 + 2*Q*y - R := by
  linear_combination (-(y^2)) * h1 + (-2*y) * h2 + (-1) * h3

/-- Explicit form of `single_quartic` through the two quadratic calls. -/
theorem single_quartic_eq (a0 b0 c0 d0 e0 : ℝ) :
    single_quartic a0 b0 c0 d0 e0 =
      ((single_quadratic 1 (quartic_s a0 b0 c0 d0 e0)
          (quartic_z0 a0 b0 c0 d0 e0 + quartic_t a0 b0 c0 d0 e0)).1
         - ((quartic_A0 a0 b0 : ℝ) : ℂ),
       (single_quadratic 1 (quartic_s a0 b0 c0 d0 e0)
          (quartic_z0 a0 b0 c0 d0 e0 + quartic_t a0 b0 c0 d0 e0)).2
         - ((quartic_A0 a0 b0 : ℝ) : ℂ),
       (single_quadratic 1 (-quartic_s a0 b0 c0 d0 e0)
          (quartic_z0 a0 b0 c0 d0 e0 - quartic_t a0 b0 c0 d0 e0)).1
         - ((quartic_A0 a0 b0 : ℝ) : ℂ),
       (single_quadratic 1 (-quartic_s a0 b0 c0 d0 e0)
          (quartic_z0 a0 b0 c0 d0 e0 - quartic_t a0 b0 c0 d0 e0)).2
         - ((quartic_A0 a0 b0 : ℝ) : ℂ)) := rfl

/-- Whenever the intermediate `s` is nonzero, the quartic factors exactly
through the four roots returned by `single_quartic`. -/
theorem single_quartic_factorization (a0 b0 c0 d0 e0 : ℝ) (ha : a0 ≠ 0)
    (hs : quartic_s a0 b0 c0 d0 e0 ≠ 0) (x : ℂ) :
    quarticEval a0 b0 c0 d0 e0 x
      = ((a0 : ℝ) : ℂ) * (x - (single_quartic a0 b0 c0 d0 e0).1)
        * (x - (single_quartic a0 b0 c0 d0 e0).2.1)
        * (x - (single_quartic a0 b0 c0 d0 e0).2.2.1)
        * (x - (single_quartic a0 b0 c0 d0 e0).2.2.2) := by
  obtain ⟨z, hz, hroot⟩ := quartic_resolvent_root a0 b0 c0 d0 e0
  have hre : (quartic_z0 a0 b0 c0 d0 e0).re = z := by rw [hz]; simp
  have hs2 : quartic_s a0 b0 c0 d0 e0 ^ 2
      = 2 * ((quartic_p a0 b0 c0 : ℝ) : ℂ) + 2 * ((z : ℝ) : ℂ) := by
    rw [quartic_s, hre]
    have := csqrt_sq (((2 * quartic_p a0 b0 c0 + 2 * z : ℝ)) : ℂ)
    rw [this]
    push_cast
    ring
  have hzp_ne : (2 * quartic_p a0 b0 c0 + 2 * z : ℝ) ≠ 0 := by
    intro h0
    apply hs
    rw [quartic_s, hre, h0]
    simp [csqrt_zero]
  have ht : quartic_t a0 b0 c0 d0 e0
      = -((quartic_q a0 b0 c0 d0 : ℝ) : ℂ) / quartic_s a0 b0 c0 d0 e0 := by
    rw [quartic_t, if_neg hs]
  have hst : quartic_s a0 b0 c0 d0 e0 * quartic_t a0 b0 c0 d0 e0
      = -((quartic_q a0 b0 c0 d0 : ℝ) : ℂ) := by
    rw [ht]; field_simp; ring
  have hfac : (2 * quartic_p a0 b0 c0 + 2 * z) * (z^2 + quartic_r a0 b0 c0 d0 e0)
      = quartic_q a0 b0 c0 d0 ^ 2 := by
    linear_combination 2 * hroot
  have hS2ne : (2 * ((quartic_p a0 b0 c0 : ℝ) : ℂ) + 2 * ((z : ℝ) : ℂ)) ≠ 0 := by
    intro h0
    apply hzp_ne
    exact_mod_cast (show ((2 * quartic_p a0 b0 c0 + 2 * z : ℝ) : ℂ) = 0 by
      push_cast; exact_mod_cast h0)
  have hfacC : (2 * ((quartic_p a0 b0 c0 : ℝ) : ℂ) + 2 * ((z : ℝ) : ℂ))
      * (((z : ℝ) : ℂ)^2 + ((quartic_r a0 b0 c0 d0 e0 : ℝ) : ℂ))
      = ((quartic_q a0 b0 c0 d0 : ℝ) : ℂ)^2 := by
    exact_mod_cast congrArg (fun w : ℝ => ((w : ℝ) : ℂ)) hfac
  have ht2 : quartic_t a0 b0 c0 d0 e0 ^ 2
      = ((z : ℝ) : ℂ)^2 + ((quartic_r a0 b0 c0 d0 e0 : ℝ) : ℂ) := by
    have e1 : quartic_t a0 b0 c0 d0 e0 ^ 2 * quartic_s a0 b0 c0 d0 e0 ^ 2
        = ((quartic_q a0 b0 c0 d0 : ℝ) : ℂ)^2 := by
      rw [ht]; field_simp
    rw [hs2] at e1
    exact mul_right_cancel₀ hS2ne (by linear_combination e1 - hfacC)
  have hkey := quartic_two_quadratics ((quartic_p a0 b0 c0 : ℝ) : ℂ)
    ((quartic_q a0 b0 c0 d0 : ℝ) : ℂ) ((quartic_r a0 b0 c0 d0 e0 : ℝ) : ℂ)
    ((z : ℝ) : ℂ) (quartic_s a0 b0 c0 d0 e0) (quartic_t a0 b0 c0 d0 e0)
    hs2 hst ht2 (x + ((quartic_A0 a0 b0 : ℝ) : ℂ))
  have hq1 := single_quadratic_mul_factor (quartic_s a0 b0 c0 d0 e0)
    (((z : ℝ) : ℂ) + quartic_t a0 b0 c0 d0 e0) (x + ((quartic_A0 a0 b0 : ℝ) : ℂ))
  have hq2 := single_quadratic_mul_factor (-quartic_s a0 b0 c0 d0 e0)
    (((z : ℝ) : ℂ) - quartic_t a0 b0 c0 d0 e0) (x + ((quartic_A0 a0 b0 : ℝ) : ℂ))
  rw [single_quartic_eq, hz]
  calc quarticEval a0 b0 c0 d0 e0 x
      = ((a0 : ℝ) : ℂ) * ((x + ((quartic_A0 a0 b0 : ℝ) : ℂ))^4
          - 2 * ((quartic_p a0 b0 c0 : ℝ) : ℂ) * (x + ((quartic_A0 a0 b0 : ℝ) : ℂ))^2
          + 2 * ((quartic_q a0 b0 c0 d0 : ℝ) : ℂ) * (x + ((quartic_A0 a0 b0 : ℝ) : ℂ))
          - ((quartic_r a0 b0 c0 d0 e0 : ℝ) : ℂ)) := quartic_depression a0 b0 c0 d0 e0 ha x
    _ = ((a0 : ℝ) : ℂ)
          * (((x + ((quartic_A0 a0 b0 : ℝ) : ℂ))^2
              + quartic_s a0 b0 c0 d0 e0 * (x + ((quartic_A0 a0 b0 : ℝ) : ℂ))
              + (((z : ℝ) : ℂ) + quartic_t a0 b0 c0 d0 e0))
            * ((x + ((quartic_A0 a0 b0 : ℝ) : ℂ))^2
              - quartic_s a0 b0 c0 d0 e0 * (x + ((quartic_A0 a0 b0 : ℝ) : ℂ))
              + (((z : ℝ) : ℂ) - quartic_t a0 b0 c0 d0 e0))) := by rw [hkey]
    _ = ((a0 : ℝ) : ℂ)
          * (((x + ((quartic_A0 a0 b0 : ℝ) : ℂ))
                - (single_quadratic 1 (quartic_s a0 b0 c0 d0 e0)
                    (((z : ℝ) : ℂ) + quartic_t a0 b0 c0 d0 e0)).1)
              * ((x + ((quartic_A0 a0 b0 : ℝ) : ℂ))
                - (single_quadratic 1 (quartic_s a0 b0 c0 d0 e0)
                    (((z : ℝ) : ℂ) + quartic_t a0 b0 c0 d0 e0)).2)
            * (((x + ((quartic_A0 a0 b0 : ℝ) : ℂ))
                - (single_quadratic 1 (-quartic_s a0 b0 c0 d0 e0)
                    (((z : ℝ) : ℂ) - quartic_t a0 b0 c0 d0 e0)).1)
              * ((x + ((quartic_A0 a0 b0 : ℝ) : ℂ))
                - (single_quadratic 1 (-quartic_s a0 b0 c0 d0 e0)
                    (((z : ℝ) : ℂ) - quartic_t a0 b0 c0 d0 e0)).2))) := by
        rw [hq1, hq2]
        ring_nf
    _ = _ := by ring

/-- For `s ≠ 0`, each of the four values returned by `single_quartic` is a
root of the quartic. -/
theorem single_quartic_roots (a0 b0 c0 d0 e0 : ℝ) (ha : a0 ≠ 0)
    (hs : quartic_s a0 b0 c0 d0 e0 ≠ 0) :
    quarticEval a0 b0 c0 d0 e0 (single_quartic a0 b0 c0 d0 e0).1 = 0 ∧
    quarticEval a0 b0 c0 d0 e0 (single_quartic a0 b0 c0 d0 e0).2.1 = 0 ∧
    quarticEval a0 b0 c0 d0 e0 (single_quartic a0 b0 c0 d0 e0).2.2.1 = 0 ∧
    quarticEval a0 b0 c0 d0 e0 (single_quartic a0 b0 c0 d0 e0).2.2.2 = 0 := by
  refine ⟨?_, ?_, ?_, ?_⟩ <;>
    rw [single_quartic_factorization a0 b0 c0 d0 e0 ha hs] <;> ring

/-- `single_cubic_one` agrees with the batched one-root form
`multi_cubic(..., all_roots=False)`. -/
theorem single_cubic_one_eq_multi (a0 b0 c0 d0 : ℝ) :
    single_cubic_one a0 b0 c0 d0 = ((multi_cubic_one a0 b0 c0 d0 : ℝ) : ℂ) := by
  rw [single_cubic_one, multi_cubic_one]
  split_ifs with h1 h2
  · rfl
  · rfl
  · push_neg at h2
    rw [cubic_S_ofReal h2, cubic_U_ofReal h2]
    push_cast
    ring

/-- `single_cubic` agrees with the batched three-root form
`multi_cubic(..., all_roots=True)`, elementwise. -/
theorem multi_cubic_eq_single (a0 b0 c0 d0 : ℝ) :
    multi_cubic a0 b0 c0 d0 = single_cubic a0 b0 c0 d0 := by
  rw [multi_cubic, single_cubic]
  split_ifs with h1 h2
  · rfl
  · rfl
  · push_neg at h2
    rw [cubic_S_ofReal h2, cubic_U_ofReal h2]
    refine Prod.ext ?_ (Prod.ext ?_ ?_)
    · push_cast; ring
    · push_cast
      simp only [show ((0.5:ℝ):ℂ) = (1/2 : ℂ) by norm_num]
      ring
    · push_cast
      simp only [show ((0.5:ℝ):ℂ) = (1/2 : ℂ) by norm_num]
      ring

/-- `multi_quartic` agrees with `single_quartic`, elementwise. -/
theorem multi_quartic_eq_single (a0 b0 c0 d0 e0 : ℝ) :
    multi_quartic a0 b0 c0 d0 e0 = single_quartic a0 b0 c0 d0 e0 := by
  have hz0 : quartic_z0 a0 b0 c0 d0 e0
      = ((multi_cubic_one 1 (quartic_p a0 b0 c0) (quartic_r a0 b0 c0 d0 e0)
          (quartic_p a0 b0 c0 * quartic_r a0 b0 c0 d0 e0
            - 0.5 * (quartic_q a0 b0 c0 d0 * quartic_q a0 b0 c0 d0)) : ℝ) : ℂ) := by
    rw [quartic_z0]
    exact single_cubic_one_eq_multi 1 (quartic_p a0 b0 c0) (quartic_r a0 b0 c0 d0 e0)
      (quartic_p a0 b0 c0 * quartic_r a0 b0 c0 d0 e0
        - 0.5 * (quartic_q a0 b0 c0 d0 * quartic_q a0 b0 c0 d0))
  rw [multi_quartic, single_quartic, quartic_s, quartic_t, quartic_s, hz0]
  simp only [Complex.ofReal_re, multi_quadratic_eq_single]

/-- `single_cubic_one` always returns a value with zero imaginary part
which is a root of the full (un-normalized) cubic. -/
theorem single_cubic_one_im_and_root (a0 b0 c0 d0 : ℝ) (ha : a0 ≠ 0) :
    (single_cubic_one a0 b0 c0 d0).im = 0 ∧
    cubicEval a0 b0 c0 d0 (single_cubic_one a0 b0 c0 d0) = 0 := by
  obtain ⟨y, hy, hroot⟩ := single_cubic_one_is_real_root a0 b0 c0 d0
  rw [hy]
  refine ⟨by simp, ?_⟩
  have hrootC : ((y:ℝ):ℂ)^3 + ((b0:ℝ):ℂ)/((a0:ℝ):ℂ)*((y:ℝ):ℂ)^2
      + ((c0:ℝ):ℂ)/((a0:ℝ):ℂ)*((y:ℝ):ℂ) + ((d0:ℝ):ℂ)/((a0:ℝ):ℂ) = 0 := by
    exact_mod_cast hroot
  have h : (a0 : ℂ) ≠ 0 := Complex.ofReal_ne_zero.mpr ha
  field_simp at hrootC
  simp only [cubicEval]
  linear_combination hrootC

/-! ## Behaviour of one energy-balance step -/

/-- The dispatcher applied by the loop reduces to `single_quartic` on the
`pmat` coefficients `(a, 0, 0, 1, e)`. -/
theorem sebRoots_eq (dt m : ℝ) (F Tprev : Option ℝ) :
    sebRoots dt m F Tprev
      = FQS.single_quartic (sebA dt m) 0 0 1 ((sebE dt m F Tprev).getD 0) := by
  rw [sebRoots, FQS.quartic_roots]
  norm_num [sebPmat, Except.toOption]

/-- Any returned root of the loop's quartic with zero imaginary part has a
real part satisfying `a*x^4 + x + e = 0` (valid whenever `a ≠ 0`, since the
resolvent coefficient `q = 0.5/a` is then nonzero and hence `s ≠ 0`). -/
theorem sebRoots_real_root {dt m : ℝ} {F Tprev : Option ℝ} (ha : sebA dt m ≠ 0)
    {z : ℂ}
    (hzmem : z ∈ [(sebRoots dt m F Tprev).1, (sebRoots dt m F Tprev).2.1,
      (sebRoots dt m F Tprev).2.2.1, (sebRoots dt m F Tprev).2.2.2])
    (him : z.im = 0) :
    sebA dt m * z.re^4 + z.re + (sebE dt m F Tprev).getD 0 = 0 := by
  have hq : FQS.quartic_q (sebA dt m) 0 0 1 ≠ 0 := by
    have : FQS.quartic_q (sebA dt m) 0 0 1 = 0.5 / sebA dt m := by
      simp [FQS.quartic_q, FQS.quartic_A0, div_eq_mul_inv]
    rw [this]
    exact div_ne_zero (by norm_num) ha
  have hs : FQS.quartic_s (sebA dt m) 0 0 1 ((sebE dt m F Tprev).getD 0) ≠ 0 :=
    fun h => hq (FQS.quartic_q_eq_zero_of_s h)
  have hroots := FQS.single_quartic_roots (sebA dt m) 0 0 1
    ((sebE dt m F Tprev).getD 0) ha hs
  have hzre : z = ((z.re : ℝ) : ℂ) := by
    apply Complex.ext
    · simp
    · simp [him]
  have hzeval : quarticEval (sebA dt m) 0 0 1 ((sebE dt m F Tprev).getD 0) z = 0 := by
    rw [sebRoots_eq] at hzmem
    simp only [List.mem_cons, List.mem_singleton, List.not_mem_nil, or_false] at hzmem
    rcases hzmem with h | h | h | h <;> rw [h] <;>
      [exact hroots.1; exact hroots.2.1; exact hroots.2.2.1; exact hroots.2.2.2]
  rw [hzre] at hzeval
  have : ((sebA dt m * z.re^4 + z.re + (sebE dt m F Tprev).getD 0 : ℝ) : ℂ) = 0 := by
    rw [← hzeval, quarticEval]
    push_cast
    ring
  exact_mod_cast this

/-- Membership in the root selection unfolds to: a returned root, real, with
strictly positive real part. -/
theorem sebSel_mem {dt m : ℝ} {F Tprev : Option ℝ} {z : ℂ} :
    z ∈ sebSel dt m F Tprev ↔
      z ∈ [(sebRoots dt m F Tprev).1, (sebRoots dt m F Tprev).2.1,
        (sebRoots dt m F Tprev).2.2.1, (sebRoots dt m F Tprev).2.2.2]
      ∧ z.im = 0 ∧ 0 < z.re := by
  rw [sebSel, List.mem_filter]
  simp only [decide_eq_true_eq]

/-- Every selected root is real, strictly positive, and a root of the
step's quartic `a*T^4 + T + e`. -/
theorem sebSel_root {dt m : ℝ} {F Tprev : Option ℝ} (ha : sebA dt m ≠ 0)
    {z : ℂ} (hz : z ∈ sebSel dt m F Tprev) :
    z.im = 0 ∧ 0 < z.re ∧
      sebA dt m * z.re^4 + z.re + (sebE dt m F Tprev).getD 0 = 0 := by
  obtain ⟨hmem, him, hpos⟩ := sebSel_mem.mp hz
  exact ⟨him, hpos, sebRoots_real_root ha hmem him⟩

/-- The quartic `a*T^4 + T + e` with `a > 0` has at most one strictly
positive real root. -/
theorem sebQuartic_pos_root_unique {a e x y : ℝ} (ha : 0 < a) (hx : 0 < x)
    (hy : 0 < y) (hrx : a*x^4 + x + e = 0) (hry : a*y^4 + y + e = 0) : x = y := by
  rcases lt_trichotomy x y with h | h | h
  · have h4 : x^4 < y^4 := pow_lt_pow_left₀ h hx.le (by norm_num)
    nlinarith
  · exact h
  · have h4 : y^4 < x^4 := pow_lt_pow_left₀ h hy.le (by norm_num)
    nlinarith

/-- Any two selected roots of a step are equal (the selection never holds
two distinct values when `a > 0`). -/
theorem sebSel_unique {dt m : ℝ} {F Tprev : Option ℝ} (ha : 0 < sebA dt m)
    {z w : ℂ} (hz : z ∈ sebSel dt m F Tprev) (hw : w ∈ sebSel dt m F Tprev) :
    z = w := by
  obtain ⟨hzi, hzp, hzr⟩ := sebSel_root ha.ne' hz
  obtain ⟨hwi, hwp, hwr⟩ := sebSel_root ha.ne' hw
  have : z.re = w.re := sebQuartic_pos_root_unique ha hzp hwp hzr hwr
  apply Complex.ext
  · exact this
  · rw [hzi, hwi]

/-- When the zeroed constant coefficient is non-negative (in particular
when the flux is NaN, which zeroes `e`), the selection is empty: the
quartic `a*T^4 + T + e` has no strictly positive real root. -/
theorem sebSel_empty_of_nonneg {dt m : ℝ} {F Tprev : Option ℝ}
    (ha : 0 < sebA dt m) (he : 0 ≤ (sebE dt m F Tprev).getD 0) :
    sebSel dt m F Tprev = [] := by
  rw [List.eq_nil_iff_forall_not_mem]
  intro z hz
  obtain ⟨him, hpos, hroot⟩ := sebSel_root ha.ne' hz
  nlinarith [pow_pos hpos 4, mul_pos ha (pow_pos hpos 4)]

/-- Reduction of a step when `Tnew` is empty: the truthiness of the empty
comparison array is falsy, the scalar assignment of an empty array raises
and is caught, so the step prints and leaves the defaults `(0.0, 0)`. -/
theorem sebStep_Tnew_nil {dt m : ℝ} {F Tprev : Option ℝ}
    (hT : sebTnew dt m F Tprev = []) :
    sebStep dt m F Tprev = (some 0, 0, true) := by
  rw [sebStep, hT]

/-- Reduction of a step when `Tnew` has two or more entries (unreachable
for the loop's quartics; the array truth test would raise). -/
theorem sebStep_Tnew_pair {dt m : ℝ} {F Tprev : Option ℝ} {v w : Option ℝ}
    {rest : List (Option ℝ)} (hT : sebTnew dt m F Tprev = v :: w :: rest) :
    sebStep dt m F Tprev = (some 0, 0, true) := by
  rw [sebStep, hT]

/-- Reduction of a step when `Tnew = [NaN]` (a selected root overwritten
by NaN): `NaN >= 273.15` is falsy, so the NaN is assigned with zero
melt. -/
theorem sebStep_Tnew_none {dt m : ℝ} {F Tprev : Option ℝ}
    (hT : sebTnew dt m F Tprev = [none]) :
    sebStep dt m F Tprev = (none, 0, false) := by
  rw [sebStep, hT]
  rfl

/-- Reduction of a step when `Tnew = [x]` with a real `x`: the clamp
branch fires iff `x >= 273.15`. -/
theorem sebStep_Tnew_some {dt m : ℝ} {F Tprev : Option ℝ} {x : ℝ}
    (hT : sebTnew dt m F Tprev = [some x]) :
    sebStep dt m F Tprev
      = if (273.15:ℝ) ≤ x
        then (some 273.15, (F.getD 0 - SBC * (273.15:ℝ)^4) / LF_I * dt, false)
        else (some x, 0, false) := by
  rw [sebStep, hT]
  by_cases hx : (273.15:ℝ) ≤ x <;> simp [hx]

/-- With real (non-NaN) flux and previous temperature, `Tnew` is the list
of selected real parts. -/
theorem sebTnew_of_some (dt m : ℝ) (F T0 : ℝ) :
    sebTnew dt m (some F) (some T0)
      = (sebSel dt m (some F) (some T0)).map (fun z => some z.re) := by
  rw [sebTnew]
  simp [sebE]

/-- If the selection is empty then so is `Tnew`. -/
theorem sebTnew_nil_of_sel_nil {dt m : ℝ} {F Tprev : Option ℝ}
    (hsel : sebSel dt m F Tprev = []) : sebTnew dt m F Tprev = [] := by
  rw [sebTnew, hsel]
  simp

/-- A step whose selection is empty takes the `try/except` fallback: the
emitted temperature is the preinitialized `0.0`, the melt mass is `0`, and
the step index is printed. -/
theorem sebStep_of_sel_nil {dt m : ℝ} {F Tprev : Option ℝ}
    (hsel : sebSel dt m F Tprev = []) :
    sebStep dt m F Tprev = (some 0, 0, true) :=
  sebStep_Tnew_nil (sebTnew_nil_of_sel_nil hsel)

/-- A step with real inputs and a single selected root `z` clamps if
`z.re >= 273.15` (emitting the melt-mass formula) and otherwise emits
`z.re` with zero melt. -/
theorem sebStep_of_sel_single {dt m : ℝ} {F T0 : ℝ} {z : ℂ}
    (hsel : sebSel dt m (some F) (some T0) = [z]) :
    sebStep dt m (some F) (some T0)
      = if (273.15:ℝ) ≤ z.re
        then (some 273.15, (F - SBC * (273.15:ℝ)^4) / LF_I * dt, false)
        else (some z.re, 0, false) := by
  have hT : sebTnew dt m (some F) (some T0) = [some z.re] := by
    rw [sebTnew_of_some, hsel]
    simp
  rw [sebStep_Tnew_some hT]
  rfl

/-- Any temperature emitted by a step is at most `273.15`. -/
theorem sebStep_temp_le {dt m : ℝ} {F Tprev : Option ℝ} {τ : ℝ}
    (h : (sebStep dt m F Tprev).1 = some τ) : τ ≤ 273.15 := by
  rcases hT : sebTnew dt m F Tprev with - | ⟨v, rest⟩
  · rw [sebStep_Tnew_nil hT] at h
    simp at h
    rw [← h]
    norm_num
  · rcases rest with - | ⟨w, rest'⟩
    · rcases v with - | x
      · rw [sebStep_Tnew_none hT] at h
        simp at h
      · rw [sebStep_Tnew_some hT] at h
        by_cases hx : (273.15:ℝ) ≤ x
        · rw [if_pos hx] at h
          simp at h
          rw [← h]
        · rw [if_neg hx] at h
          simp at h
          rw [← h]
          linarith [not_le.mp hx]
    · rw [sebStep_Tnew_pair hT] at h
      simp at h
      rw [← h]
      norm_num

/-! ## Concrete evaluations of the solver -/

theorem single_quadratic_1_eval (s A : ℂ) :
    FQS.single_quadratic 1 s A
      = (-0.5*s - csqrt (0.25*s^2 - A), -0.5*s + csqrt (0.25*s^2 - A)) := by
  rw [FQS.single_quadratic_eq,
    show (-0.5*(s/1)*(-0.5*(s/1)) - A/1 : ℂ) = 0.25*s^2 - A by ring,
    show (-0.5*(s/1) : ℂ) = -0.5*s by ring]

theorem sqrt_four : Real.sqrt 4 = 2 := by
  rw [show (4:ℝ) = 2^2 by norm_num, Real.sqrt_sq (by norm_num : (0:ℝ) ≤ 2)]

theorem csqrt_four : csqrt 4 = 2 := by
  rw [show (4:ℂ) = ((4:ℝ):ℂ) by norm_num, csqrt_ofReal_nonneg (by norm_num), sqrt_four]
  norm_num

/-- The resolvent-cubic value for the quartic `x^4 - 4`:
`single_cubic_one(1, 0, 4, 0) = 0` exactly (the Cardano terms cancel). -/
theorem cubic_one_at_0_4_0 : FQS.single_cubic_one 1 0 4 0 = 0 := by
  have hf : FQS.cubic_f 1 0 4 = 4/3 := by
    simp [FQS.cubic_f, FQS.cubic_a13]
    norm_num
  have hg : FQS.cubic_g 1 0 4 0 = 0 := by
    simp [FQS.cubic_g, FQS.cubic_a13]
  have hh : FQS.cubic_h 1 0 4 0 = 64/27 := by
    rw [FQS.cubic_h_eq, hf, hg]
    norm_num
  have hpos : 0 < FQS.cubic_h 1 0 4 0 := by rw [hh]; norm_num
  have hsum : FQS.cubic_Sr 1 0 4 0 + FQS.cubic_Ur 1 0 4 0 = 0 := by
    rw [FQS.cubic_Sr, FQS.cubic_Ur, hg, hh,
      show (-0.5*(0:ℝ) + Real.sqrt (64/27)) = Real.sqrt (64/27) by ring,
      show (-0.5*(0:ℝ) - Real.sqrt (64/27)) = -(Real.sqrt (64/27)) by ring,
      cbrtR_neg]
    ring
  rw [FQS.single_cubic_one,
    if_neg (fun hc => by rw [hf] at hc; norm_num at hc),
    if_neg (not_le.mpr hpos),
    FQS.cubic_S_ofReal hpos, FQS.cubic_U_ofReal hpos,
    show FQS.cubic_a13 1 0 = 0 by simp [FQS.cubic_a13],
    ← Complex.ofReal_add, hsum]
  norm_num

theorem quartic_p_1000 : FQS.quartic_p 1 0 0 = 0 := by
  simp [FQS.quartic_p, FQS.quartic_A0]

theorem quartic_q_1000 : FQS.quartic_q 1 0 0 0 = 0 := by
  simp [FQS.quartic_q, FQS.quartic_A0]

theorem quartic_r_deg : FQS.quartic_r 1 0 0 0 (-4) = 4 := by
  norm_num [FQS.quartic_r, FQS.quartic_A0]

theorem quartic_z0_deg : FQS.quartic_z0 1 0 0 0 (-4) = 0 := by
  rw [FQS.quartic_z0, quartic_p_1000, quartic_q_1000, quartic_r_deg,
    show ((0:ℝ)*4 - 0.5*(0*0)) = 0 by norm_num]
  exact cubic_one_at_0_4_0

/-- On the biquadratic `x^4 - 4`, the intermediate `s` vanishes: the
degenerate fallback `t = z0*z0 + r` fires. -/
theorem quartic_s_deg : FQS.quartic_s 1 0 0 0 (-4) = 0 := by
  rw [FQS.quartic_s, quartic_p_1000, quartic_z0_deg]
  norm_num [csqrt_zero]

theorem quartic_t_deg : FQS.quartic_t 1 0 0 0 (-4) = 4 := by
  rw [FQS.quartic_t, if_pos quartic_s_deg, quartic_z0_deg, quartic_r_deg]
  norm_num

/-- On `x^4 - 4`, the fourth returned root of `single_quartic` is `2`
(instead of a genuine root `±sqrt 2`, `±i*sqrt 2`). -/
theorem single_quartic_deg_last : (FQS.single_quartic 1 0 0 0 (-4)).2.2.2 = 2 := by
  rw [FQS.single_quartic_eq]
  simp only []
  rw [quartic_s_deg, quartic_z0_deg, quartic_t_deg,
    show -(0:ℂ) = 0 from neg_zero,
    show (0:ℂ) - 4 = -4 by ring,
    single_quadratic_1_eval,
    show (0.25*(0:ℂ)^2 - (-4)) = 4 by ring, csqrt_four,
    show FQS.quartic_A0 1 0 = 0 by simp [FQS.quartic_A0]]
  norm_num

theorem sqrt_1_256 : Real.sqrt (1/256) = 1/16 := by
  rw [show (1/256:ℝ) = (1/16)^2 by norm_num,
    Real.sqrt_sq (by norm_num : (0:ℝ) ≤ 1/16)]

theorem cbrt_1_8 : cbrtR (1/8) = 1/2 := by
  rw [show (1/8:ℝ) = (1/2)^3 by norm_num, cbrtR_of_cube]

/-- The resolvent-cubic value for the quartic `x^4 + x`:
`single_cubic_one(1, 0, 0, -1/8) = 1/2`. -/
theorem cubic_one_at_0_0_m18 : FQS.single_cubic_one 1 0 0 (-(1/8)) = ((1/2:ℝ):ℂ) := by
  have hg : FQS.cubic_g 1 0 0 (-(1/8)) = -(1/8) := by
    simp [FQS.cubic_g, FQS.cubic_a13]
  have hh : FQS.cubic_h 1 0 0 (-(1/8)) = 1/256 := by
    rw [FQS.cubic_h_eq, hg, show FQS.cubic_f 1 0 0 = 0 by simp [FQS.cubic_f, FQS.cubic_a13]]
    norm_num
  have hpos : 0 < FQS.cubic_h 1 0 0 (-(1/8)) := by rw [hh]; norm_num
  have hS : FQS.cubic_Sr 1 0 0 (-(1/8)) = 1/2 := by
    rw [FQS.cubic_Sr, hg, hh, sqrt_1_256,
      show (-0.5 * -(1/8) + 1/16 : ℝ) = 1/8 by norm_num, cbrt_1_8]
  have hU : FQS.cubic_Ur 1 0 0 (-(1/8)) = 0 := by
    rw [FQS.cubic_Ur, hg, hh, sqrt_1_256,
      show (-0.5 * -(1/8) - 1/16 : ℝ) = 0 by norm_num, cbrtR_zero]
  rw [FQS.single_cubic_one,
    if_neg (fun hc => by rw [hg] at hc; norm_num at hc),
    if_neg (not_le.mpr hpos),
    FQS.cubic_S_ofReal hpos, FQS.cubic_U_ofReal hpos, hS, hU,
    show FQS.cubic_a13 1 0 = 0 by simp [FQS.cubic_a13]]
  norm_num

theorem quartic_q_1001 : FQS.quartic_q 1 0 0 1 = 1/2 := by
  norm_num [FQS.quartic_q, FQS.quartic_A0]

theorem quartic_r_1001 : FQS.quartic_r 1 0 0 1 0 = 0 := by
  norm_num [FQS.quartic_r, FQS.quartic_A0]

theorem quartic_z0_1001 : FQS.quartic_z0 1 0 0 1 0 = ((1/2:ℝ):ℂ) := by
  rw [FQS.quartic_z0, quartic_p_1000, quartic_q_1001, quartic_r_1001,
    show ((0:ℝ)*0 - 0.5*((1/2)*(1/2))) = -(1/8) by norm_num]
  exact cubic_one_at_0_0_m18

/-- On the quartic `x^4 + x`, the intermediate `s` evaluates to `1`:
a nondegenerate instance. -/
theorem quartic_s_1001 : FQS.quartic_s 1 0 0 1 0 = 1 := by
  rw [FQS.quartic_s, quartic_p_1000, quartic_z0_1001]
  norm_num [csqrt_one]

/-! ## Claims C1, C10, C6, C7 -/

/-- C1, counterexample: on the quartic `x^4 - 4` (leading coefficient 1,
nonzero), `single_quartic` returns `2` among its roots, and `2` does not
satisfy the polynomial (`P(2) = 12`): the claim "every returned root
satisfies the quartic, including the degenerate case `s = 0`" is false on
the code. -/
theorem claim_C1_counterexample :
    (FQS.single_quartic 1 0 0 0 (-4)).2.2.2 = 2 ∧
    quarticEval 1 0 0 0 (-4) ((FQS.single_quartic 1 0 0 0 (-4)).2.2.2) ≠ 0 := by
  refine ⟨single_quartic_deg_last, ?_⟩
  rw [single_quartic_deg_last]
  norm_num [quarticEval]

/-- C1 (amended): for every real coefficient vector with nonzero leading
coefficient, *whenever the intermediate `s` is nonzero*, every root
returned by `single_quartic` satisfies the quartic exactly, and
`multi_quartic` (the batched path) returns the same roots.  (When `s = 0`
the division by zero is indeed avoided, but the returned values need not
satisfy the quartic — see `claim_C1_counterexample`.) -/
theorem claim_C1 (a0 b0 c0 d0 e0 : ℝ) (ha : a0 ≠ 0)
    (hs : FQS.quartic_s a0 b0 c0 d0 e0 ≠ 0) :
    (quarticEval a0 b0 c0 d0 e0 (FQS.single_quartic a0 b0 c0 d0 e0).1 = 0 ∧
     quarticEval a0 b0 c0 d0 e0 (FQS.single_quartic a0 b0 c0 d0 e0).2.1 = 0 ∧
     quarticEval a0 b0 c0 d0 e0 (FQS.single_quartic a0 b0 c0 d0 e0).2.2.1 = 0 ∧
     quarticEval a0 b0 c0 d0 e0 (FQS.single_quartic a0 b0 c0 d0 e0).2.2.2 = 0) ∧
    FQS.multi_quartic a0 b0 c0 d0 e0 = FQS.single_quartic a0 b0 c0 d0 e0 :=
  ⟨FQS.single_quartic_roots a0 b0 c0 d0 e0 ha hs,
   FQS.multi_quartic_eq_single a0 b0 c0 d0 e0⟩

/-- C1, witness: the quartic `x^4 + x` has `s = 1 ≠ 0`, and the amended
theorem applies to it. -/
theorem claim_C1_witness :
    (1:ℝ) ≠ 0 ∧ FQS.quartic_s 1 0 0 1 0 ≠ 0 ∧
    quarticEval 1 0 0 1 0 (FQS.single_quartic 1 0 0 1 0).1 = 0 := by
  have hs : FQS.quartic_s 1 0 0 1 0 ≠ 0 := by rw [quartic_s_1001]; norm_num
  exact ⟨by norm_num, hs, (claim_C1 1 0 0 1 0 (by norm_num) hs).1.1⟩

/-- C10: for every real coefficient quadruple with nonzero leading
coefficient, `single_cubic_one` returns a value with exactly zero imaginary
part which is a root of the cubic, in all three classification branches;
and it agrees with the batched `multi_cubic(..., all_roots=False)` value
(real by construction), which the quartic solver relies on when forming
`s = sqrt(2p + 2*z0.real)`. -/
theorem claim_C10 (a0 b0 c0 d0 : ℝ) (ha : a0 ≠ 0) :
    (FQS.single_cubic_one a0 b0 c0 d0).im = 0 ∧
    cubicEval a0 b0 c0 d0 (FQS.single_cubic_one a0 b0 c0 d0) = 0 ∧
    FQS.single_cubic_one a0 b0 c0 d0 = ((FQS.multi_cubic_one a0 b0 c0 d0 : ℝ) : ℂ) := by
  obtain ⟨him, hroot⟩ := FQS.single_cubic_one_im_and_root a0 b0 c0 d0 ha
  exact ⟨him, hroot, FQS.single_cubic_one_eq_multi a0 b0 c0 d0⟩

/-- C10, witness: the cubic `y^3 + 2y - 9/8` (a Cardano-branch instance). -/
theorem claim_C10_witness :
    (1:ℝ) ≠ 0 ∧ (FQS.single_cubic_one 1 0 2 (-(9/8))).im = 0 ∧
    cubicEval 1 0 2 (-(9/8)) (FQS.single_cubic_one 1 0 2 (-(9/8))) = 0 :=
  ⟨by norm_num, (claim_C10 1 0 2 (-(9/8)) (by norm_num)).1,
   (claim_C10 1 0 2 (-(9/8)) (by norm_num)).2.1⟩

/-- C6: the dispatchers use the single-equation solvers for fewer than 100
rows and the batched solvers otherwise, and for identical inputs the two
paths return exactly equal root tuples, row by row (for both the cubic and
the quartic solver). -/
theorem claim_C6 :
    (∀ (n : ℕ) (M : ℕ → ℕ → ℝ), n < 100 →
      FQS.quartic_roots n 5 M
        = Except.ok (fun i => FQS.single_quartic (M i 0) (M i 1) (M i 2) (M i 3) (M i 4))) ∧
    (∀ (n : ℕ) (M : ℕ → ℕ → ℝ), ¬ n < 100 →
      FQS.quartic_roots n 5 M
        = Except.ok (fun i => FQS.multi_quartic (M i 0) (M i 1) (M i 2) (M i 3) (M i 4))) ∧
    (∀ a0 b0 c0 d0 e0 : ℝ,
      FQS.multi_quartic a0 b0 c0 d0 e0 = FQS.single_quartic a0 b0 c0 d0 e0) ∧
    (∀ (n : ℕ) (M : ℕ → ℕ → ℝ), n < 100 →
      FQS.cubic_roots n 4 M
        = Except.ok (fun i => FQS.single_cubic (M i 0) (M i 1) (M i 2) (M i 3))) ∧
    (∀ (n : ℕ) (M : ℕ → ℕ → ℝ), ¬ n < 100 →
      FQS.cubic_roots n 4 M
        = Except.ok (fun i => FQS.multi_cubic (M i 0) (M i 1) (M i 2) (M i 3))) ∧
    (∀ a0 b0 c0 d0 : ℝ, FQS.multi_cubic a0 b0 c0 d0 = FQS.single_cubic a0 b0 c0 d0) := by
  refine ⟨?_, ?_, FQS.multi_quartic_eq_single, ?_, ?_, FQS.multi_cubic_eq_single⟩
  · intro n M h
    rw [FQS.quartic_roots, if_pos rfl, if_pos h]
  · intro n M h
    rw [FQS.quartic_roots, if_pos rfl, if_neg h]
  · intro n M h
    rw [FQS.cubic_roots, if_pos rfl, if_pos h]
  · intro n M h
    rw [FQS.cubic_roots, if_pos rfl, if_neg h]

/-- C6, witness: a 1-row batch takes the single-equation path and a
150-row batch takes the batched path; on the all-ones row they agree. -/
theorem claim_C6_witness :
    (1:ℕ) < 100 ∧ ¬ (150:ℕ) < 100 ∧
    FQS.quartic_roots 1 5 (fun _ _ => 1)
      = Except.ok (fun _ => FQS.single_quartic 1 1 1 1 1) ∧
    FQS.quartic_roots 150 5 (fun _ _ => 1)
      = Except.ok (fun _ => FQS.multi_quartic 1 1 1 1 1) :=
  ⟨by norm_num, by norm_num,
   claim_C6.1 1 (fun _ _ => 1) (by norm_num),
   claim_C6.2.1 150 (fun _ _ => 1) (by norm_num)⟩

/-- C7: `cubic_roots` (resp. `quartic_roots`) raises its descriptive
shape error exactly when a coefficient row does not have 4 (resp. 5)
entries, before any root computation; a correct-width input never errors,
whatever its values (the degree is never inferred from trailing zeros). -/
theorem claim_C7 :
    (∀ (n w : ℕ) (M : ℕ → ℕ → ℝ), w ≠ 5 →
      FQS.quartic_roots n w M = Except.error (FQS.quarticShapeMsg w)) ∧
    (∀ (n : ℕ) (M : ℕ → ℕ → ℝ), ∃ f, FQS.quartic_roots n 5 M = Except.ok f) ∧
    (∀ (n w : ℕ) (M : ℕ → ℕ → ℝ), w ≠ 4 →
      FQS.cubic_roots n w M = Except.error (FQS.cubicShapeMsg w)) ∧
    (∀ (n : ℕ) (M : ℕ → ℕ → ℝ), ∃ f, FQS.cubic_roots n 4 M = Except.ok f) ∧
    (∀ w : ℕ, FQS.quarticShapeMsg w
      = "Expected 4th order polynomial with 5 coefficients, got " ++ toString w ++ ".") ∧
    (∀ w : ℕ, FQS.cubicShapeMsg w
      = "Expected 3rd order polynomial with 4 coefficients, got " ++ toString w ++ ".") := by
  refine ⟨?_, ?_, ?_, ?_, fun w => rfl, fun w => rfl⟩
  · intro n w M h
    rw [FQS.quartic_roots, if_neg h]
  · intro n M
    rw [FQS.quartic_roots, if_pos rfl]
    by_cases h : n < 100
    · exact ⟨_, by rw [if_pos h]⟩
    · exact ⟨_, by rw [if_neg h]⟩
  · intro n w M h
    rw [FQS.cubic_roots, if_neg h]
  · intro n M
    rw [FQS.cubic_roots, if_pos rfl]
    by_cases h : n < 100
    · exact ⟨_, by rw [if_pos h]⟩
    · exact ⟨_, by rw [if_neg h]⟩

/-- C7, witness: width 3 errors with the descriptive message, width 5
succeeds. -/
theorem claim_C7_witness :
    (3:ℕ) ≠ 5 ∧
    FQS.quartic_roots 1 3 (fun _ _ => 0) = Except.error (FQS.quarticShapeMsg 3) ∧
    (∃ f, FQS.quartic_roots 1 5 (fun _ _ => 0) = Except.ok f) ∧
    FQS.quarticShapeMsg 3
      = "Expected 4th order polynomial with 5 coefficients, got 3." :=
  ⟨by norm_num, claim_C7.1 1 3 (fun _ _ => 0) (by norm_num),
   claim_C7.2.1 1 (fun _ _ => 0), rfl⟩

/-! ## Claims C5 and C2 -/

theorem sebA_dtA1 : sebA dtA1 20 = 1 := by
  rw [sebA, dtA1, SBC, CP_I]
  norm_num

theorem sebA_dtA13 : sebA dtA13 20 = 1/3 := by
  rw [sebA, dtA13, SBC, CP_I]
  norm_num

/-- Any two real roots of a cubic `y^3 + c*y + d` with `c > 0` coincide
(the cubic is strictly increasing). -/
theorem cubic_increasing_unique {c d y1 y2 : ℝ} (hc : 0 < c)
    (h1 : y1^3 + c*y1 + d = 0) (h2 : y2^3 + c*y2 + d = 0) : y1 = y2 := by
  by_contra hne
  have key : (y1 - y2) * (y1^2 + y1*y2 + y2^2 + c) = 0 := by
    linear_combination h1 - h2
  have hpos : 0 < y1^2 + y1*y2 + y2^2 + c := by
    nlinarith [sq_nonneg (y1 + y2), sq_nonneg (y1 - y2)]
  rcases mul_eq_zero.mp key with h | h
  · exact hne (sub_eq_zero.mp h)
  · linarith

/-- C5: the quartic built by the energy-balance loop,
`a*T^4 + 0*T^3 + 0*T^2 + 1*T + e` with `a = SBC*dt/(CP_I*m) > 0`, has at
most one real strictly positive root for any real `e`, and the step's root
selection therefore never contains two distinct values. -/
theorem claim_C5 (dt m : ℝ) (ha : 0 < sebA dt m) (F Tprev : Option ℝ) :
    (∀ e x y : ℝ, 0 < x → 0 < y →
      sebA dt m * x^4 + x + e = 0 → sebA dt m * y^4 + y + e = 0 → x = y) ∧
    (∀ z w : ℂ, z ∈ sebSel dt m F Tprev → w ∈ sebSel dt m F Tprev → z = w) :=
  ⟨fun _ x y hx hy hrx hry => sebQuartic_pos_root_unique ha hx hy hrx hry,
   fun _ _ hz hw => sebSel_unique ha hz hw⟩

/-- C5, witness: with `a = 1/3` and `e = -4/3` the root `1` is the unique
positive root. -/
theorem claim_C5_witness :
    0 < sebA dtA13 20 ∧ (0:ℝ) < 1 ∧
    sebA dtA13 20 * 1^4 + 1 + (-(4/3)) = 0 ∧ (1:ℝ) = 1 := by
  have ha : 0 < sebA dtA13 20 := by rw [sebA_dtA13]; norm_num
  have hroot : sebA dtA13 20 * 1^4 + 1 + (-(4/3)) = 0 := by
    rw [sebA_dtA13]; norm_num
  exact ⟨ha, by norm_num, hroot,
    (claim_C5 dtA13 20 ha (some 0) (some 0)).1 (-(4/3)) 1 1 (by norm_num) (by norm_num)
      hroot hroot⟩

theorem E2_p : FQS.quartic_p (1/3) 0 0 = 0 := by
  simp [FQS.quartic_p, FQS.quartic_A0]

theorem E2_q : FQS.quartic_q (1/3) 0 0 1 = 3/2 := by
  norm_num [FQS.quartic_q, FQS.quartic_A0]

theorem E2_r : FQS.quartic_r (1/3) 0 0 1 (-(2/3)) = 2 := by
  norm_num [FQS.quartic_r, FQS.quartic_A0]

theorem E2_z0 : FQS.quartic_z0 (1/3) 0 0 1 (-(2/3)) = ((1/2:ℝ):ℂ) := by
  rw [FQS.quartic_z0, E2_p, E2_q, E2_r,
    show ((0:ℝ)*2 - 0.5*((3/2)*(3/2))) = -(9/8) by norm_num]
  obtain ⟨y, hy, hroot⟩ := FQS.single_cubic_one_is_real_root 1 0 2 (-(9/8))
  have h2 : y^3 + 2*y + (-(9/8)) = 0 := by linear_combination hroot
  have huniq : y = 1/2 := cubic_increasing_unique (by norm_num : (0:ℝ) < 2) h2
    (by norm_num)
  rw [hy, huniq]

theorem E2_s : FQS.quartic_s (1/3) 0 0 1 (-(2/3)) = 1 := by
  rw [FQS.quartic_s, E2_p, E2_z0]
  norm_num [csqrt_one]

theorem E2_t : FQS.quartic_t (1/3) 0 0 1 (-(2/3)) = ((-(3/2):ℝ):ℂ) := by
  rw [FQS.quartic_t, if_neg (by rw [E2_s]; norm_num), E2_q, E2_s]
  push_cast
  norm_num

theorem E2_roots : FQS.single_quartic (1/3) 0 0 1 (-(2/3)) =
    (((-(1/2) - Real.sqrt (5/4) : ℝ) : ℂ),
     ((Real.sqrt (5/4) - 1/2 : ℝ) : ℂ),
     ((1/2:ℝ):ℂ) - ((Real.sqrt (7/4):ℝ):ℂ) * Complex.I,
     ((1/2:ℝ):ℂ) + ((Real.sqrt (7/4):ℝ):ℂ) * Complex.I) := by
  have hzt1 : FQS.quartic_z0 (1/3) 0 0 1 (-(2/3)) + FQS.quartic_t (1/3) 0 0 1 (-(2/3))
      = ((-1 : ℝ) : ℂ) := by
    rw [E2_z0, E2_t]; push_cast; ring
  have hzt2 : FQS.quartic_z0 (1/3) 0 0 1 (-(2/3)) - FQS.quartic_t (1/3) 0 0 1 (-(2/3))
      = ((2 : ℝ) : ℂ) := by
    rw [E2_z0, E2_t]; push_cast; ring
  rw [FQS.single_quartic_eq, E2_s, hzt1, hzt2, single_quadratic_1_eval,
    single_quadratic_1_eval,
    show (0.25*(1:ℂ)^2 - ((-1:ℝ):ℂ)) = ((5/4:ℝ):ℂ) by push_cast; norm_num,
    show (0.25*(-(1:ℂ))^2 - ((2:ℝ):ℂ)) = ((-(7/4):ℝ):ℂ) by push_cast; norm_num,
    csqrt_ofReal_nonneg (by norm_num : (0:ℝ) ≤ 5/4),
    csqrt_ofReal_neg (by norm_num : (-(7/4):ℝ) < 0),
    show (-(-(7/4)) : ℝ) = 7/4 by norm_num,
    show FQS.quartic_A0 (1/3) 0 = 0 by simp [FQS.quartic_A0]]
  refine Prod.ext ?_ (Prod.ext ?_ (Prod.ext ?_ ?_)) <;>
    (push_cast; norm_num; try ring)

/-- The concrete step `(a, e) = (1/3, -2/3)`: the selection consists of the
single positive real root `sqrt(5/4) - 1/2` of `T^4/3 + T - 2/3`. -/
theorem E2_sel : sebSel dtA13 20 (some 0) (some (2/3))
    = [((Real.sqrt (5/4) - 1/2 : ℝ) : ℂ)] := by
  have hE : sebE dtA13 20 (some 0) (some (2/3)) = some (-(2/3)) := by
    simp [sebE]
  have hR : sebRoots dtA13 20 (some 0) (some (2/3)) =
      (((-(1/2) - Real.sqrt (5/4) : ℝ) : ℂ),
       ((Real.sqrt (5/4) - 1/2 : ℝ) : ℂ),
       ((1/2:ℝ):ℂ) - ((Real.sqrt (7/4):ℝ):ℂ) * Complex.I,
       ((1/2:ℝ):ℂ) + ((Real.sqrt (7/4):ℝ):ℂ) * Complex.I) := by
    rw [sebRoots_eq, sebA_dtA13, hE, Option.getD_some]
    exact E2_roots
  rw [sebSel, hR]
  dsimp only
  have h74 : 0 < Real.sqrt (7/4) := Real.sqrt_pos.mpr (by norm_num)
  have hnp1 : ¬((((-(1/2) - Real.sqrt (5/4) : ℝ) : ℂ)).im = 0
      ∧ 0 < (((-(1/2) - Real.sqrt (5/4) : ℝ) : ℂ)).re) := by
    rintro ⟨-, h⟩
    rw [Complex.ofReal_re] at h
    linarith [Real.sqrt_nonneg (5/4 : ℝ)]
  have hp2 : (((Real.sqrt (5/4) - 1/2 : ℝ) : ℂ)).im = 0
      ∧ 0 < (((Real.sqrt (5/4) - 1/2 : ℝ) : ℂ)).re := by
    refine ⟨Complex.ofReal_im _, ?_⟩
    rw [Complex.ofReal_re]
    have : (1/2 : ℝ) < Real.sqrt (5/4) := by
      rw [Real.lt_sqrt (by norm_num : (0:ℝ) ≤ 1/2)]
      norm_num
    linarith
  have hnp3 : ¬((((1/2:ℝ):ℂ) - ((Real.sqrt (7/4):ℝ):ℂ) * Complex.I).im = 0
      ∧ 0 < (((1/2:ℝ):ℂ) - ((Real.sqrt (7/4):ℝ):ℂ) * Complex.I).re) := by
    rintro ⟨h, -⟩
    simp at h
  have hnp4 : ¬((((1/2:ℝ):ℂ) + ((Real.sqrt (7/4):ℝ):ℂ) * Complex.I).im = 0
      ∧ 0 < (((1/2:ℝ):ℂ) + ((Real.sqrt (7/4):ℝ):ℂ) * Complex.I).re) := by
    rintro ⟨h, -⟩
    simp at h
  rw [List.filter_cons, List.filter_cons, List.filter_cons, List.filter_cons,
    List.filter_nil,
    if_neg (fun hc => hnp1 (of_decide_eq_true hc)),
    if_pos (decide_eq_true hp2),
    if_neg (fun hc => hnp3 (of_decide_eq_true hc)),
    if_neg (fun hc => hnp4 (of_decide_eq_true hc))]

/-- C2: in each step of the energy-balance loop, if the selected real
positive root is `>= 273.15` the emitted temperature is exactly `273.15`
and the melt mass is `(F_k - SBC*273.15^4)/LF_I*dt` (with
`SBC = 5.67e-8`, `LF_I = 333500.0`); otherwise the emitted temperature is
the root itself and the melt mass is exactly `0`. -/
theorem claim_C2 (dt m F T0 : ℝ) (z : ℂ)
    (hsel : sebSel dt m (some F) (some T0) = [z]) :
    ((273.15:ℝ) ≤ z.re →
      sebStep dt m (some F) (some T0)
        = (some 273.15, (F - SBC * (273.15:ℝ)^4) / LF_I * dt, false)) ∧
    (z.re < 273.15 →
      sebStep dt m (some F) (some T0) = (some z.re, 0, false)) ∧
    SBC = 5.67e-8 ∧ LF_I = 333500.0 := by
  have h := sebStep_of_sel_single hsel
  exact ⟨fun hge => by rw [h, if_pos hge],
         fun hlt => by rw [h, if_neg (not_le.mpr hlt)], rfl, rfl⟩

/-- C2, witness: the concrete step `(a, e) = (1/3, -2/3)` selects the
sub-freezing root `sqrt(5/4) - 1/2` and emits it with zero melt. -/
theorem claim_C2_witness :
    sebSel dtA13 20 (some 0) (some (2/3)) = [((Real.sqrt (5/4) - 1/2 : ℝ) : ℂ)] ∧
    sebStep dtA13 20 (some 0) (some (2/3))
      = (some (Real.sqrt (5/4) - 1/2), 0, false) := by
  have hx : (((Real.sqrt (5/4) - 1/2 : ℝ) : ℂ)).re < 273.15 := by
    rw [Complex.ofReal_re]
    have h2 : Real.sqrt (5/4) < 2 := by
      rw [Real.sqrt_lt' (by norm_num : (0:ℝ) < 2)]
      norm_num
    linarith
  refine ⟨E2_sel, ?_⟩
  have h := (claim_C2 dtA13 20 0 (2/3) _ E2_sel).2.1 hx
  simpa using h

/-! ## The selection never holds two entries -/

/-- A quartic `a*y^4 + y + e` with `a > 0` cannot have a strictly positive
double root: the coefficient extraction
`4*a*x^3 + 1 = f(x+1) - f(x-1)/3 - f(x)/2 - f(x+2)/6` of the difference
`f` between the quartic and a factorization with `(y - x)^2` forces
`4*a*x^3 + 1 = 0`. -/
theorem no_double_pos_root (a e x : ℝ) (u v : ℂ) (ha : 0 < a) (hx : 0 < x)
    (hfac : ∀ y : ℂ, (a:ℂ)*y^4 + y + (e:ℂ)
      = (a:ℂ) * (y - ((x:ℝ):ℂ)) * (y - ((x:ℝ):ℂ)) * (y - u) * (y - v)) :
    False := by
  have hK : 4*((a:ℝ):ℂ)*((x:ℝ):ℂ)^3 + 1 = 0 := by
    linear_combination hfac (((x:ℝ):ℂ) + 1) - (1/3 : ℂ) * hfac (((x:ℝ):ℂ) - 1)
      - (1/2 : ℂ) * hfac ((x:ℝ):ℂ) - (1/6 : ℂ) * hfac (((x:ℝ):ℂ) + 2)
  have hKr : 4*a*x^3 + 1 = 0 := by exact_mod_cast hK
  nlinarith [mul_pos ha (pow_pos hx 3)]

/-- Among the four roots returned for `a*y^4 + y + e` with `a > 0`, a
strictly positive real value never appears twice. -/
theorem quartic_no_double {a e x : ℝ} {r1 r2 r3 r4 : ℂ} (ha : 0 < a) (hx : 0 < x)
    (hfac : ∀ y : ℂ, (a:ℂ)*y^4 + y + (e:ℂ)
      = (a:ℂ) * (y - r1) * (y - r2) * (y - r3) * (y - r4))
    (hcount : 2 ≤ ([r1, r2, r3, r4].count ((x:ℝ):ℂ))) : False := by
  by_cases h1 : r1 = ((x:ℝ):ℂ) <;> by_cases h2 : r2 = ((x:ℝ):ℂ) <;>
    by_cases h3 : r3 = ((x:ℝ):ℂ) <;> by_cases h4 : r4 = ((x:ℝ):ℂ)
  all_goals first
    | exact no_double_pos_root a e x r3 r4 ha hx
        (fun y => by rw [hfac y, h1, h2]; try ring)
    | exact no_double_pos_root a e x r2 r4 ha hx
        (fun y => by rw [hfac y, h1, h3]; try ring)
    | exact no_double_pos_root a e x r2 r3 ha hx
        (fun y => by rw [hfac y, h1, h4]; try ring)
    | exact no_double_pos_root a e x r1 r4 ha hx
        (fun y => by rw [hfac y, h2, h3]; try ring)
    | exact no_double_pos_root a e x r1 r3 ha hx
        (fun y => by rw [hfac y, h2, h4]; try ring)
    | exact no_double_pos_root a e x r1 r2 ha hx
        (fun y => by rw [hfac y, h3, h4]; try ring)
    | (simp [List.count_cons, List.count_nil, h1, h2, h3, h4] at hcount
       try omega)

/-- The root selection of an energy-balance step never contains two
entries. -/
theorem sebSel_not_pair {dt m : ℝ} {F Tprev : Option ℝ} (ha : 0 < sebA dt m)
    {z w : ℂ} {rest : List ℂ} (h : sebSel dt m F Tprev = z :: w :: rest) :
    False := by
  have hzmem : z ∈ sebSel dt m F Tprev := by rw [h]; simp
  have hwmem : w ∈ sebSel dt m F Tprev := by rw [h]; simp
  have hzw : z = w := sebSel_unique ha hzmem hwmem
  obtain ⟨him, hpos, hroot⟩ := sebSel_root ha.ne' hzmem
  have hzre : z = ((z.re : ℝ) : ℂ) := by
    apply Complex.ext
    · simp
    · simp [him]
  -- the value z.re appears at least twice among the returned roots
  have hsub : List.Sublist (sebSel dt m F Tprev) [(sebRoots dt m F Tprev).1,
      (sebRoots dt m F Tprev).2.1, (sebRoots dt m F Tprev).2.2.1,
      (sebRoots dt m F Tprev).2.2.2] := by
    rw [sebSel]
    exact List.filter_sublist _
  have hcount2 : 2 ≤ (sebSel dt m F Tprev).count (((z.re:ℝ):ℂ)) := by
    rw [h, ← hzre, ← hzw]
    simp [List.count_cons]
  have hcount : 2 ≤ ([(sebRoots dt m F Tprev).1, (sebRoots dt m F Tprev).2.1,
      (sebRoots dt m F Tprev).2.2.1, (sebRoots dt m F Tprev).2.2.2].count
        (((z.re:ℝ):ℂ))) :=
    le_trans hcount2 (hsub.count_le _)
  -- factorization of the step's quartic through the returned roots
  have hq : FQS.quartic_q (sebA dt m) 0 0 1 ≠ 0 := by
    have heq : FQS.quartic_q (sebA dt m) 0 0 1 = 0.5 / sebA dt m := by
      simp [FQS.quartic_q, FQS.quartic_A0, div_eq_mul_inv]
    rw [heq]
    exact div_ne_zero (by norm_num) ha.ne'
  have hs : FQS.quartic_s (sebA dt m) 0 0 1 ((sebE dt m F Tprev).getD 0) ≠ 0 :=
    fun h0 => hq (FQS.quartic_q_eq_zero_of_s h0)
  have hfac : ∀ y : ℂ, ((sebA dt m : ℝ):ℂ)*y^4 + y
      + (((sebE dt m F Tprev).getD 0 : ℝ):ℂ)
      = ((sebA dt m : ℝ):ℂ) * (y - (sebRoots dt m F Tprev).1)
        * (y - (sebRoots dt m F Tprev).2.1)
        * (y - (sebRoots dt m F Tprev).2.2.1)
        * (y - (sebRoots dt m F Tprev).2.2.2) := by
    intro y
    have hfac0 := FQS.single_quartic_factorization (sebA dt m) 0 0 1
      ((sebE dt m F Tprev).getD 0) ha.ne' hs y
    rw [quarticEval] at hfac0
    rw [sebRoots_eq]
    push_cast at hfac0 ⊢
    linear_combination hfac0
  exact quartic_no_double ha hpos hfac hcount

/-! ## The clamp invariant -/

/-- Per-step invariant: with positive `dt` and `m`, a real (non-NaN) flux,
and a previous temperature at most `273.15`, the step emits a real
temperature at most `273.15`, a non-negative melt mass, and a melt mass of
exactly zero whenever the emitted temperature is strictly below
`273.15`. -/
theorem sebStep_invariant (dt m F T0 : ℝ) (hdt : 0 < dt) (hm : 0 < m)
    (hT0 : T0 ≤ 273.15) :
    ∃ τ, (sebStep dt m (some F) (some T0)).1 = some τ ∧ τ ≤ 273.15
      ∧ 0 ≤ (sebStep dt m (some F) (some T0)).2.1
      ∧ (τ < 273.15 → (sebStep dt m (some F) (some T0)).2.1 = 0) := by
  have hCP : (0:ℝ) < CP_I := by rw [CP_I]; norm_num
  have hSBC : (0:ℝ) < SBC := by rw [SBC]; norm_num
  have hLF : (0:ℝ) < LF_I := by rw [LF_I]; norm_num
  have hCm : 0 < CP_I * m := mul_pos hCP hm
  have hc : 0 < dt / (CP_I * m) := div_pos hdt hCm
  have ha : 0 < sebA dt m := by
    rw [sebA]
    exact div_pos (mul_pos hSBC hdt) hCm
  rcases hsel : sebSel dt m (some F) (some T0) with - | ⟨z, rest⟩
  · rw [sebStep_of_sel_nil hsel]
    exact ⟨0, rfl, by norm_num, le_refl 0, fun _ => rfl⟩
  · rcases rest with - | ⟨w, rest'⟩
    · have hzmem : z ∈ sebSel dt m (some F) (some T0) := by rw [hsel]; simp
      obtain ⟨him, hpos, hroot⟩ := sebSel_root ha.ne' hzmem
      have hE : (sebE dt m (some F) (some T0)).getD 0
          = -1 * (F * dt / (CP_I * m) + T0) := rfl
      rw [hE, sebA] at hroot
      rw [sebStep_of_sel_single hsel]
      by_cases hclamp : (273.15:ℝ) ≤ z.re
      · rw [if_pos hclamp]
        refine ⟨273.15, rfl, le_refl _, ?_, fun hlt => absurd hlt (lt_irrefl _)⟩
        have h4 : (273.15:ℝ)^4 ≤ z.re^4 := pow_le_pow_left (by norm_num) hclamp 4
        have hF : SBC * (273.15:ℝ)^4 * (dt / (CP_I * m)) ≤ F * (dt / (CP_I * m)) := by
          have hca : SBC * dt / (CP_I * m) = SBC * (dt / (CP_I * m)) := by ring
          have hcf : F * dt / (CP_I * m) = F * (dt / (CP_I * m)) := by ring
          rw [hca, hcf] at hroot
          have hineq : SBC * (dt / (CP_I * m)) * (273.15:ℝ)^4
              ≤ SBC * (dt / (CP_I * m)) * z.re^4 :=
            mul_le_mul_of_nonneg_left h4 (mul_pos hSBC hc).le
          linarith [hineq, hroot, hclamp, hT0]
        have hFle : SBC * (273.15:ℝ)^4 ≤ F := le_of_mul_le_mul_right hF hc
        exact mul_nonneg (div_nonneg (by linarith) hLF.le) hdt.le
      · rw [if_neg hclamp]
        exact ⟨z.re, rfl, (not_le.mp hclamp).le, le_refl 0, fun _ => rfl⟩
    · exact (sebSel_not_pair ha hsel).elim

/-- **C4.** For every flux series with no NaN entries and every initial skin
temperature at most `273.15` K, the energy-balance loop's output series
satisfy, at every step `k`: the emitted temperature is a real number at most
`273.15`; the melt mass is non-negative (in particular when the step clamped
to `273.15`); and the melt mass is exactly zero whenever the emitted
temperature is strictly below `273.15`. -/
theorem claim_C4 (dt dz rhos : ℝ) (flux : ℕ → Option ℝ) (TS : ℕ → ℝ)
    (hdt : 0 < dt) (hdz : 0 < dz) (hrhos : 0 < rhos)
    (hflux : ∀ k, (flux k).isSome) (hTS : TS 0 ≤ 273.15) (k : ℕ) :
    (∃ τ, calcSEBtemp dt dz rhos flux TS k = some τ ∧ τ ≤ 273.15)
      ∧ 0 ≤ calcSEBmelt dt dz rhos flux TS k
      ∧ (∀ τ, calcSEBtemp dt dz rhos flux TS k = some τ → τ < 273.15 →
          calcSEBmelt dt dz rhos flux TS k = 0) := by
  have hm : 0 < rhos * dz := mul_pos hrhos hdz
  induction k with
  | zero =>
    obtain ⟨F0, hF0⟩ := Option.isSome_iff_exists.mp (hflux 0)
    obtain ⟨τ, h1, h2, h3, h4⟩ := sebStep_invariant dt (rhos * dz) F0 (TS 0) hdt hm hTS
    have hrun : calcSEBrun dt dz rhos flux TS 0
        = sebStep dt (rhos * dz) (some F0) (some (TS 0)) := by
      rw [calcSEBrun, hF0]
    refine ⟨⟨τ, ?_, h2⟩, ?_, ?_⟩
    · rw [calcSEBtemp, hrun]
      exact h1
    · rw [calcSEBmelt, hrun]
      exact h3
    · intro τ' hτ' hlt
      rw [calcSEBtemp, hrun, h1] at hτ'
      rw [calcSEBmelt, hrun]
      exact h4 (by simpa [Option.some_inj.mp hτ'] using hlt)
  | succ k ih =>
    obtain ⟨⟨τp, hτp, hτple⟩, -, -⟩ := ih
    obtain ⟨Fk, hFk⟩ := Option.isSome_iff_exists.mp (hflux (k + 1))
    obtain ⟨τ, h1, h2, h3, h4⟩ := sebStep_invariant dt (rhos * dz) Fk τp hdt hm hτple
    have hrun : calcSEBrun dt dz rhos flux TS (k + 1)
        = sebStep dt (rhos * dz) (some Fk) (some τp) := by
      rw [calcSEBrun, hFk]
      rw [calcSEBtemp] at hτp
      rw [hτp]
    refine ⟨⟨τ, ?_, h2⟩, ?_, ?_⟩
    · rw [calcSEBtemp, hrun]
      exact h1
    · rw [calcSEBmelt, hrun]
      exact h3
    · intro τ' hτ' hlt
      rw [calcSEBtemp, hrun, h1] at hτ'
      rw [calcSEBmelt, hrun]
      exact h4 (by simpa [Option.some_inj.mp hτ'] using hlt)

/-- Witness for C4 at a concrete input: unit-step flux series `0`, initial
temperature `0`, `dz = 0.05`, `rhos = 400`. -/
theorem claim_C4_witness :
    (∃ τ, calcSEBtemp dtA1 0.05 400 (fun _ => some 0) (fun _ => 0) 0 = some τ
        ∧ τ ≤ 273.15)
      ∧ 0 ≤ calcSEBmelt dtA1 0.05 400 (fun _ => some 0) (fun _ => 0) 0
      ∧ (∀ τ, calcSEBtemp dtA1 0.05 400 (fun _ => some 0) (fun _ => 0) 0 = some τ
          → τ < 273.15 → calcSEBmelt dtA1 0.05 400 (fun _ => some 0) (fun _ => 0) 0 = 0) :=
  claim_C4 dtA1 0.05 400 (fun _ => some 0) (fun _ => 0) (by rw [dtA1]; norm_num)
    (by norm_num) (by norm_num) (fun _ => rfl) (by norm_num) 0

/-! ## Chaining of the previous temperature -/

/-- With real (non-NaN) inputs a step always emits a real temperature. -/
theorem sebStep_isSome (dt m F T0 : ℝ) :
    ((sebStep dt m (some F) (some T0)).1).isSome = true := by
  rcases hsel : sebSel dt m (some F) (some T0) with - | ⟨z, rest⟩
  · rw [sebStep_of_sel_nil hsel]
    rfl
  · rcases rest with - | ⟨w, rest'⟩
    · rw [sebStep_of_sel_single hsel]
      by_cases h : (273.15:ℝ) ≤ z.re
      · rw [if_pos h]
        rfl
      · rw [if_neg h]
        rfl
    · have hT : sebTnew dt m (some F) (some T0)
          = some z.re :: some w.re :: rest'.map (fun z => some z.re) := by
        rw [sebTnew_of_some, hsel]
        rfl
      rw [sebStep_Tnew_pair hT]
      rfl

/-- **C3, counterexample.** In the melt pre-calculation loop of
`makeSpinFiles`, step `1` builds its quartic from the raw input
skin-temperature `dts[0] = 280` — not from the computed output of step `0`,
which exists and can never equal `280` (every emitted temperature is at
most `273.15`). -/
theorem claim_C3_counterexample :
    (makeSpinStep dtA1 (fun _ => some 0) (fun _ => (280:ℝ)) 1
        = sebStep dtA1 (400 * 0.08) (some 0) (some 280))
      ∧ ((makeSpinStep dtA1 (fun _ => some 0) (fun _ => (280:ℝ)) 0).1).isSome = true
      ∧ ∀ τ, (makeSpinStep dtA1 (fun _ => some 0) (fun _ => (280:ℝ)) 0).1 = some τ
          → τ ≠ 280 := by
  refine ⟨rfl, sebStep_isSome dtA1 (400 * 0.08) 0 280, ?_⟩
  intro τ hτ heq
  have hle : τ ≤ 273.15 := sebStep_temp_le hτ
  rw [heq] at hle
  norm_num at hle

/-- **C3** (amended). `calcSEB`'s loop does chain: step `k+1` builds its
quartic from the computed temperature output of step `k`, and step `0` from
the supplied initial skin temperature. The melt loop of `makeSpinFiles`,
however, builds step `k`'s quartic from the raw input series: `dts (k-1)`
for `k > 0` and `dts 0` at `k = 0`, never from a computed output. -/
theorem claim_C3 (dt dz rhos : ℝ) (flux : ℕ → Option ℝ) (TS : ℕ → ℝ)
    (dtS : ℝ) (fluxS : ℕ → Option ℝ) (dts : ℕ → ℝ) (k : ℕ) (hk : k ≠ 0) :
    (calcSEBrun dt dz rhos flux TS k
        = sebStep dt (rhos * dz) (flux k) (calcSEBtemp dt dz rhos flux TS (k - 1)))
      ∧ (calcSEBrun dt dz rhos flux TS 0 = sebStep dt (rhos * dz) (flux 0) (some (TS 0)))
      ∧ (makeSpinStep dtS fluxS dts k
          = sebStep dtS (400 * 0.08) (fluxS k) (some (dts (k - 1))))
      ∧ (makeSpinStep dtS fluxS dts 0
          = sebStep dtS (400 * 0.08) (fluxS 0) (some (dts 0))) := by
  obtain ⟨j, rfl⟩ := Nat.exists_eq_succ_of_ne_zero hk
  refine ⟨?_, rfl, ?_, rfl⟩
  · rw [calcSEBrun, calcSEBtemp]
    rfl
  · rw [makeSpinStep, makeSpin_T0]
    rfl

/-- Witness for C3 at `k = 1` with concrete series. -/
theorem claim_C3_witness :
    (1:ℕ) ≠ 0
      ∧ ((calcSEBrun 1 1 1 (fun _ => some 0) (fun _ => 0) 1
          = sebStep 1 (1 * 1) (some 0) (calcSEBtemp 1 1 1 (fun _ => some 0) (fun _ => 0) 0))
        ∧ (calcSEBrun 1 1 1 (fun _ => some 0) (fun _ => 0) 0
          = sebStep 1 (1 * 1) (some 0) (some 0))
        ∧ (makeSpinStep 1 (fun _ => some 0) (fun _ => 0) 1
          = sebStep 1 (400 * 0.08) (some 0) (some 0))
        ∧ (makeSpinStep 1 (fun _ => some 0) (fun _ => 0) 0
          = sebStep 1 (400 * 0.08) (some 0) (some 0))) :=
  ⟨by decide, claim_C3 1 1 1 (fun _ => some 0) (fun _ => 0) 1 (fun _ => some 0)
    (fun _ => 0) 1 (by decide)⟩

/-! ## Steps with no physically valid root -/

/-- **C8, counterexample.** A concrete non-NaN step with no real strictly
positive root (`flux = 0`, previous temperature `0`, so `e = 0` and the
quartic is `T^4 + T`): the loop does not raise a hard error — it prints the
step index (the `true` flag) and emits the preinitialized defaults
`temperature = 0.0`, `melt = 0`, then continues. -/
theorem claim_C8_counterexample :
    calcSEBrun dtA1 0.05 400 (fun _ => some 0) (fun _ => 0) 0 = (some 0, 0, true) := by
  have hrun : calcSEBrun dtA1 0.05 400 (fun _ => some 0) (fun _ => 0) 0
      = sebStep dtA1 (400 * 0.05) (some 0) (some 0) := rfl
  rw [hrun, show (400:ℝ) * 0.05 = 20 by norm_num]
  apply sebStep_of_sel_nil
  apply sebSel_empty_of_nonneg
  · rw [sebA_dtA1]
    norm_num
  · simp [sebE]

/-- **C8** (amended). When a step's quartic has no real strictly positive
root (the selection step 3 returns nothing), the loop does not surface a
hard error: the empty comparison is falsy, so the `else` branch's guarded
assignment `TcalcH[kk] = Tnew` of the empty array to a scalar slot raises
inside the `try`, the `except` merely prints the bare step index `kk` and
the empty `Tnew` (modelled by the `true` flag of the emitted triple),
`TcalcH[kk]` keeps its preinitialized default `0.0`, `meltmassH[kk]` is set
to `0`, and the loop continues. -/
theorem claim_C8 (dt m : ℝ) (F Tprev : Option ℝ) (ha : 0 < sebA dt m)
    (he : 0 ≤ (sebE dt m F Tprev).getD 0) :
    sebSel dt m F Tprev = [] ∧ sebStep dt m F Tprev = (some 0, 0, true) := by
  have hsel := sebSel_empty_of_nonneg ha he
  exact ⟨hsel, sebStep_of_sel_nil hsel⟩

/-- Witness for C8 at a concrete no-valid-root input. -/
theorem claim_C8_witness :
    (0 < sebA dtA1 20 ∧ 0 ≤ (sebE dtA1 20 (some 0) (some 0)).getD 0)
      ∧ (sebSel dtA1 20 (some 0) (some 0) = []
        ∧ sebStep dtA1 20 (some 0) (some 0) = (some 0, 0, true)) :=
  ⟨⟨by rw [sebA_dtA1]; norm_num, by simp [sebE]⟩,
    claim_C8 dtA1 20 (some 0) (some 0) (by rw [sebA_dtA1]; norm_num) (by simp [sebE])⟩

/-- **C9.** A NaN net flux at step `k` does not propagate to the outputs:
the NaN constant coefficient is zeroed, the zeroed quartic `a*T^4 + T` has
no strictly positive real root, so the selection — and hence `Tnew` — is
empty before the NaN overwrite `Tnew[np.isnan(e)] = np.nan` can apply to
anything; the scalar assignment then raises, the step index is printed (the
`true` flag), and the step emits the non-NaN defaults `temperature = 0.0`
and `melt = 0` instead of NaN. -/
theorem claim_C9 :
    calcSEBrun dtA1 0.05 400 (fun _ => none) (fun _ => 250) 0 = (some 0, 0, true)
      ∧ sebE dtA1 20 none (some 250) = none := by
  refine ⟨?_, rfl⟩
  have hrun : calcSEBrun dtA1 0.05 400 (fun _ => none) (fun _ => 250) 0
      = sebStep dtA1 (400 * 0.05) none (some 250) := rfl
  rw [hrun, show (400:ℝ) * 0.05 = 20 by norm_num]
  apply sebStep_of_sel_nil
  apply sebSel_empty_of_nonneg
  · rw [sebA_dtA1]
    norm_num
  · simp [sebE]
